import Mathlib

/-!
Verification of the `psorter` row-wise pixel-sorting program (`src/main.rs`).

The development shallowly embeds the program:

* a `Pixel` is four 8-bit channels (`Fin 256`), as in `image::Rgba<u8>`;
* the metric key functions `luminance`, `hue` and `saturation`
  (`src/main.rs:21-66`) are embedded over `ℚ`; every `f32` operation of the
  source is modelled by `flround`, exact IEEE-754 binary32 rounding to
  nearest, ties to even.  All intermediate values of these computations stay
  far inside the binary32 normal range, so no overflow, underflow or NaN
  case arises and precision-only rounding is an exact model of the `f32`
  semantics;
* `into_intervals` (`src/main.rs:68-86`) is embedded structurally;
* the per-row sorting loop of `sort_image` (`src/main.rs:103-129`) is
  embedded as `sort_row`; Rust's stable `Vec::sort_by` is modelled by the
  stable `List.mergeSort`;
* the batch loop of `main` (`src/main.rs:184-188`) is embedded as
  `processBatch`, abstracting each item's success or failure.
-/

namespace Psorter

/-- One RGBA pixel: four 8-bit channels, as `image::Rgba<u8>`. -/
structure Pixel where
  r : Fin 256
  g : Fin 256
  b : Fin 256
  a : Fin 256
deriving DecidableEq

/-- The `SortBy` enum of `src/main.rs:8-12`. -/
inductive SortBy where
  | Luminance : SortBy
  | Hue : SortBy
  | Saturation : SortBy
deriving DecidableEq

/-- `threshold_upper_boundary` (`src/main.rs:14-19`). -/
def threshold_upper_boundary (method : SortBy) : ℕ :=
  match method with
  | SortBy.Luminance | SortBy.Saturation => 255
  | SortBy.Hue => 360

/-! ## Exact binary32 rounding

`flround q` is the binary32 (single precision) rounding of the rational `q`:
round to nearest, ties to even, with 24 bits of significand.  The exponent is
unbounded, which coincides with IEEE-754 binary32 on the whole computation
range used by the program (all values live in `[2^-9, 2^9]` in magnitude).
All recursions are structural so that the definitions compute.
-/

/-- Number of binary digits of `n`, with explicit fuel (structural recursion). -/
def bitsAux : ℕ → ℕ → ℕ
  | 0, _ => 0
  | fuel + 1, n => if n = 0 then 0 else bitsAux fuel (n / 2) + 1

/-- Number of binary digits of `n`: `2^(bits n - 1) ≤ n < 2^(bits n)` for `n > 0`. -/
def bits (n : ℕ) : ℕ := bitsAux n n

theorem bitsAux_spec (fuel : ℕ) : ∀ n : ℕ, 0 < n → n ≤ fuel →
    n < 2 ^ bitsAux fuel n ∧ 2 ^ bitsAux fuel n ≤ 2 * n := by
  induction fuel with
  | zero => intro n h1 h2; omega
  | succ fuel ih =>
    intro n h1 h2
    rw [bitsAux]
    rw [if_neg (by omega)]
    by_cases hn : n = 1
    · subst hn
      have : bitsAux fuel 0 = 0 := by cases fuel <;> simp [bitsAux]
      simp [this]
    · have hd : 0 < n / 2 := by omega
      have hdf : n / 2 ≤ fuel := by omega
      obtain ⟨ha, hb⟩ := ih (n / 2) hd hdf
      constructor
      · have : 2 ^ (bitsAux fuel (n / 2) + 1) = 2 * 2 ^ bitsAux fuel (n / 2) := by ring
        omega
      · have : 2 ^ (bitsAux fuel (n / 2) + 1) = 2 * 2 ^ bitsAux fuel (n / 2) := by ring
        omega

theorem bits_spec (n : ℕ) (h : 0 < n) : n < 2 ^ bits n ∧ 2 ^ bits n ≤ 2 * n :=
  bitsAux_spec n n h le_rfl

/-- The binary exponent of `q`: for `q ≠ 0`, `2^(qexp q) ≤ |q| < 2^(qexp q + 1)`. -/
def qexp (q : ℚ) : ℤ :=
  let e0 : ℤ := (bits q.num.natAbs : ℤ) - (bits q.den : ℤ)
  if (2 : ℚ) ^ e0 ≤ |q| then e0 else e0 - 1

theorem exp_bracket (q : ℚ) (hq : q ≠ 0) :
    (2 : ℚ) ^ ((bits q.num.natAbs : ℤ) - (bits q.den : ℤ) - 1) < |q| ∧
      |q| < 2 ^ ((bits q.num.natAbs : ℤ) - (bits q.den : ℤ) + 1) := by
  have hnum : 0 < q.num.natAbs := by
    have := Rat.num_ne_zero.mpr hq
    omega
  have hden : 0 < q.den := q.pos
  obtain ⟨hn1, hn2⟩ := bits_spec q.num.natAbs hnum
  obtain ⟨hd1, hd2⟩ := bits_spec q.den hden
  have hdenpos : (0 : ℚ) < (q.den : ℚ) := by exact_mod_cast hden
  have habs : |q| = (q.num.natAbs : ℚ) / (q.den : ℚ) := by
    conv_lhs => rw [← Rat.num_div_den q]
    rw [abs_div, Int.cast_natAbs, Int.cast_abs, abs_of_pos hdenpos]
  have htwo : (2 : ℚ) ≠ 0 := by norm_num
  have hstep : ∀ e : ℤ, (2 : ℚ) ^ (e - 1) * 2 = 2 ^ e := by
    intro e
    rw [zpow_sub₀ htwo, zpow_one]
    field_simp
  -- bounds in ℚ
  have hQn1 : (q.num.natAbs : ℚ) < 2 ^ (bits q.num.natAbs : ℤ) := by
    rw [zpow_natCast]; exact_mod_cast hn1
  have hQn2 : (2 : ℚ) ^ (bits q.num.natAbs : ℤ) ≤ 2 * (q.num.natAbs : ℚ) := by
    rw [zpow_natCast]; exact_mod_cast hn2
  have hQd1 : (q.den : ℚ) < 2 ^ (bits q.den : ℤ) := by
    rw [zpow_natCast]; exact_mod_cast hd1
  have hQd2 : (2 : ℚ) ^ (bits q.den : ℤ) ≤ 2 * (q.den : ℚ) := by
    rw [zpow_natCast]; exact_mod_cast hd2
  set bn : ℤ := (bits q.num.natAbs : ℤ) with hbn
  set bd : ℤ := (bits q.den : ℤ) with hbd
  have hd_ge : (2 : ℚ) ^ (bd - 1) ≤ (q.den : ℚ) := by
    have h := hstep bd
    nlinarith [hQd2]
  have hn_ge : (2 : ℚ) ^ (bn - 1) ≤ (q.num.natAbs : ℚ) := by
    have h := hstep bn
    nlinarith [hQn2]
  constructor
  · -- lower half: 2^(bn - bd - 1) < |q|
    rw [habs, lt_div_iff₀ hdenpos]
    calc (2 : ℚ) ^ (bn - bd - 1) * (q.den : ℚ)
        < 2 ^ (bn - bd - 1) * 2 ^ bd := by
          exact mul_lt_mul_of_pos_left hQd1 (by positivity)
      _ = 2 ^ (bn - 1) := by rw [← zpow_add₀ htwo]; ring_nf
      _ ≤ (q.num.natAbs : ℚ) := hn_ge
  · -- upper half: |q| < 2^(bn - bd + 1)
    rw [habs, div_lt_iff₀ hdenpos]
    calc (q.num.natAbs : ℚ) < 2 ^ bn := hQn1
      _ = 2 ^ (bn - bd + 1) * 2 ^ (bd - 1) := by rw [← zpow_add₀ htwo]; ring_nf
      _ ≤ 2 ^ (bn - bd + 1) * (q.den : ℚ) := by
          exact mul_le_mul_of_nonneg_left hd_ge (by positivity)

theorem qexp_spec (q : ℚ) (hq : q ≠ 0) :
    (2 : ℚ) ^ qexp q ≤ |q| ∧ |q| < 2 ^ (qexp q + 1) := by
  obtain ⟨hlo, hhi⟩ := exp_bracket q hq
  unfold qexp
  by_cases hif : (2 : ℚ) ^ ((bits q.num.natAbs : ℤ) - (bits q.den : ℤ)) ≤ |q|
  · simp only [if_pos hif]
    exact ⟨hif, hhi⟩
  · simp only [if_neg hif]
    constructor
    · exact le_of_lt hlo
    · have h : ((bits q.num.natAbs : ℤ) - (bits q.den : ℤ) - 1 + 1 : ℤ)
          = (bits q.num.natAbs : ℤ) - (bits q.den : ℤ) := by ring
      rw [h]
      exact lt_of_not_le hif

/-- Round a rational to the nearest integer, ties to even. -/
def rnd (s : ℚ) : ℤ :=
  if s - ⌊s⌋ < 1 / 2 then ⌊s⌋
  else if 1 / 2 < s - ⌊s⌋ then ⌊s⌋ + 1
  else if ⌊s⌋ % 2 = 0 then ⌊s⌋ else ⌊s⌋ + 1

theorem rnd_err (s : ℚ) : |(rnd s : ℚ) - s| ≤ 1 / 2 := by
  have h0 : ((⌊s⌋ : ℤ) : ℚ) ≤ s := Int.floor_le s
  have h1 : s < ⌊s⌋ + 1 := Int.lt_floor_add_one s
  unfold rnd
  split_ifs with hf hg hpar <;>
    (rw [abs_le]; push_cast; constructor <;> linarith)

theorem rnd_intCast (k : ℤ) : rnd (k : ℚ) = k := by
  unfold rnd
  rw [Int.floor_intCast]
  norm_num

theorem zpow_pred_mul_two (e : ℤ) : (2 : ℚ) ^ (e - 1) * 2 = 2 ^ e := by
  rw [zpow_sub₀ (by norm_num : (2 : ℚ) ≠ 0), zpow_one]
  field_simp

/-- Binary32 rounding of a positive rational (24-bit significand). -/
def flroundPos (q : ℚ) : ℚ :=
  (rnd (q * 2 ^ ((23 : ℤ) - qexp q)) : ℚ) * 2 ^ (qexp q - 23)

/-- Binary32 (single precision) rounding: round to nearest, ties to even.
The exponent is unbounded; on the ranges used by this program this agrees
exactly with IEEE-754 binary32 (no overflow or underflow occurs). -/
def flround (q : ℚ) : ℚ :=
  if q = 0 then 0
  else if q < 0 then -flroundPos (-q)
  else flroundPos q

theorem flroundPos_err (q : ℚ) (hq : 0 < q) : |flroundPos q - q| ≤ q / 2 ^ 24 := by
  obtain ⟨he1, _he2⟩ := qexp_spec q (ne_of_gt hq)
  rw [abs_of_pos hq] at he1
  have htwo : (2 : ℚ) ≠ 0 := by norm_num
  set e : ℤ := qexp q with hee
  set s : ℚ := q * 2 ^ ((23 : ℤ) - e) with hs
  have hsq : s * 2 ^ (e - 23) = q := by
    rw [hs, mul_assoc, ← zpow_add₀ htwo]
    norm_num
  have hdiff : flroundPos q - q = ((rnd s : ℚ) - s) * 2 ^ (e - 23) := by
    rw [flroundPos, sub_mul, hsq, hee]
  rw [hdiff, abs_mul, abs_of_pos (a := (2 : ℚ) ^ (e - 23)) (by positivity)]
  calc |(rnd s : ℚ) - s| * 2 ^ (e - 23)
      ≤ 1 / 2 * 2 ^ (e - 23) := by
        exact mul_le_mul_of_nonneg_right (rnd_err s) (by positivity)
    _ = 2 ^ (e - 24) := by
        have h := zpow_pred_mul_two (e - 23)
        have h2 : (e - 23 - 1 : ℤ) = e - 24 := by ring
        rw [h2] at h
        linarith
    _ = 2 ^ e / 2 ^ (24 : ℤ) := by rw [zpow_sub₀ htwo]
    _ ≤ q / 2 ^ (24 : ℤ) := by
        apply div_le_div_of_nonneg_right he1 (by positivity) |>.trans_eq rfl
    _ = q / 2 ^ 24 := by norm_num

theorem flround_err (q : ℚ) : |flround q - q| ≤ |q| / 2 ^ 24 := by
  unfold flround
  split_ifs with h0 hneg
  · subst h0; norm_num
  · have h : -flroundPos (-q) - q = -(flroundPos (-q) - -q) := by ring
    rw [h, abs_neg, abs_of_neg hneg]
    exact flroundPos_err (-q) (by linarith)
  · have hpos : 0 < q := lt_of_le_of_ne (not_lt.mp hneg) (Ne.symm h0)
    rw [abs_of_pos hpos]
    exact flroundPos_err q hpos

theorem flround_zero : flround 0 = 0 := by unfold flround; norm_num

theorem flroundPos_int (n : ℤ) (h1 : 0 < n) (h2 : n ≤ 2 ^ 24) :
    flroundPos (n : ℚ) = n := by
  have hq : (0 : ℚ) < (n : ℚ) := by exact_mod_cast h1
  obtain ⟨he1, he2⟩ := qexp_spec (n : ℚ) (ne_of_gt hq)
  rw [abs_of_pos hq] at he1 he2
  have htwo : (2 : ℚ) ≠ 0 := by norm_num
  set e : ℤ := qexp (n : ℚ) with hee
  have hez : 0 ≤ e := by
    by_contra hlt
    push_neg at hlt
    have h3 : e + 1 ≤ 0 := by omega
    have h4 : (2 : ℚ) ^ (e + 1) ≤ 2 ^ (0 : ℤ) :=
      zpow_le_zpow_right₀ (by norm_num) h3
    have h5 : (1 : ℚ) ≤ (n : ℚ) := by exact_mod_cast h1
    rw [zpow_zero] at h4
    linarith
  have hele : e ≤ 24 := by
    by_contra hgt
    push_neg at hgt
    have h3 : (25 : ℤ) ≤ e := by omega
    have h4 : (2 : ℚ) ^ (25 : ℤ) ≤ 2 ^ e := zpow_le_zpow_right₀ (by norm_num) h3
    have h5 : (n : ℚ) ≤ 2 ^ 24 := by exact_mod_cast h2
    norm_num at h4
    linarith
  -- the scaled significand is an integer
  have hint : ∃ k : ℤ, (n : ℚ) * 2 ^ ((23 : ℤ) - e) = (k : ℚ) := by
    by_cases hc : e ≤ 23
    · refine ⟨n * 2 ^ (23 - e).toNat, ?_⟩
      push_cast
      rw [← zpow_natCast (2 : ℚ) (23 - e).toNat]
      congr 1
      congr 1
      omega
    · -- e = 24, so n = 2^24 and the scaled value is 2^23
      have he24 : e = 24 := by omega
      have hn : (n : ℚ) = 2 ^ (24 : ℤ) := by
        have hle : (2 : ℚ) ^ (24 : ℤ) ≤ (n : ℚ) := by rw [← he24]; exact he1
        have hge : (n : ℚ) ≤ 2 ^ (24 : ℤ) := by exact_mod_cast h2
        linarith
      refine ⟨2 ^ 23, ?_⟩
      rw [hn, he24, ← zpow_add₀ htwo]
      norm_num
  obtain ⟨k, hk⟩ := hint
  rw [flroundPos, ← hee, hk, rnd_intCast, ← hk, mul_assoc, ← zpow_add₀ htwo]
  norm_num

/-- One rounded step: if `x` is within `B` of the target `t` and `|x| ≤ C`,
then `flround x` is within `B + C/2^24` of `t`. -/
theorem flround_approx {x t C : ℚ} (B : ℚ) (hxt : |x - t| ≤ B) (hx : |x| ≤ C) :
    |flround x - t| ≤ B + C / 2 ^ 24 := by
  have h1 := flround_err x
  have h2 : |flround x - t| ≤ |flround x - x| + |x - t| := abs_sub_le _ x _
  have h3 : |x| / 2 ^ 24 ≤ C / 2 ^ 24 := by gcongr
  linarith

theorem flround_int (n : ℤ) (h : n.natAbs ≤ 2 ^ 24) : flround (n : ℚ) = n := by
  unfold flround
  split_ifs with h0 hneg
  · exact_mod_cast h0.symm
  · have hn : n < 0 := by exact_mod_cast hneg
    have : flroundPos (-(n : ℚ)) = ((-n : ℤ) : ℚ) := by
      rw [show (-(n : ℚ)) = ((-n : ℤ) : ℚ) by push_cast; ring]
      exact flroundPos_int (-n) (by omega) (by omega)
    rw [this]
    push_cast
    ring
  · have hn : 0 < n := by
      rcases lt_trichotomy n 0 with h | h | h
      · exact absurd (by exact_mod_cast h : (n : ℚ) < 0) hneg
      · exact absurd (by exact_mod_cast h : (n : ℚ) = 0) h0
      · exact h
    exact flroundPos_int n hn (by omega)

/-! ## The metric key functions -/

/-- Saturating cast of an `f32` value to `u16` (Rust `as` cast): truncation
toward zero, negative values to 0, values above 65535 to 65535. -/
def f32toU16 (q : ℚ) : ℕ := min 65535 (⌊q⌋.toNat)

theorem f32toU16_le (q : ℚ) (n : ℕ) (h : q < (n : ℚ) + 1) : f32toU16 q ≤ n := by
  unfold f32toU16
  have h1 : ⌊q⌋ < (n : ℤ) + 1 := Int.floor_lt.mpr (by push_cast; exact h)
  omega

theorem f32toU16_ge (q : ℚ) (n : ℕ) (hn : n ≤ 65535) (h : (n : ℚ) ≤ q) :
    n ≤ f32toU16 q := by
  unfold f32toU16
  have h1 : (n : ℤ) ≤ ⌊q⌋ := Int.le_floor.mpr (by push_cast; exact h)
  omega

/-- `luminance` (`src/main.rs:21-23`) delegates to the `image` crate's
`to_luma`, whose code is not part of this repository.  Modelled from the
spec: "standard perceptual luma computed from RGB using the same weighting a
grayscale conversion would use; range [0,255]" — the `image` crate's
Rec. 709 integer formula `(2126·R + 7152·G + 722·B) / 10000` on the RGB
channels, ignoring alpha. -/
def luminance (pixel : Pixel) : ℕ :=
  (2126 * pixel.r.val + 7152 * pixel.g.val + 722 * pixel.b.val) / 10000

/-- The `f32` local `min` of `hue` (`src/main.rs:30`): `blue.min(red.min(green))`.
The `u8 as f32` conversions (`src/main.rs:26-28`) are exact, as is `min`. -/
def hueMn (pixel : Pixel) : ℚ :=
  min (pixel.b.val : ℚ) (min (pixel.r.val : ℚ) (pixel.g.val : ℚ))

/-- The `f32` local `max` of `hue` (`src/main.rs:31`): `blue.max(red.max(green))`. -/
def hueMx (pixel : Pixel) : ℚ :=
  max (pixel.b.val : ℚ) (max (pixel.r.val : ℚ) (pixel.g.val : ℚ))

/-- The `f32` local `hue` before `* 60.0` (`src/main.rs:37-45`): each
arithmetic `f32` operation is one `flround`.  The unreachable
`panic!("how?")` arm (`max` always equals one of the three channels) is
subsumed by the final `else`, which is the `max == blue` case. -/
def hueH (pixel : Pixel) : ℚ :=
  if hueMx pixel = (pixel.r.val : ℚ) then
    flround (flround ((pixel.g.val : ℚ) - (pixel.b.val : ℚ)) / flround (hueMx pixel - hueMn pixel))
  else if hueMx pixel = (pixel.g.val : ℚ) then
    flround (2 + flround (flround ((pixel.b.val : ℚ) - (pixel.r.val : ℚ)) / flround (hueMx pixel - hueMn pixel)))
  else
    flround (4 + flround (flround ((pixel.r.val : ℚ) - (pixel.g.val : ℚ)) / flround (hueMx pixel - hueMn pixel)))

/-- The `f32` value `hue * 60.0` (`src/main.rs:45`). -/
def hueH60 (pixel : Pixel) : ℚ := flround (hueH pixel * 60)

/-- `hue` (`src/main.rs:25-48`): HSL hue in degrees computed in `f32`,
negative values shifted by `+ 360.0`, then cast `as u16`. -/
def hue (pixel : Pixel) : ℕ :=
  if hueMx pixel = hueMn pixel then 0
  else f32toU16 (if hueH60 pixel < 0 then flround (hueH60 pixel + 360) else hueH60 pixel)

/-- One scaled channel of `saturation` (`src/main.rs:51-53`): `c as f32 / 255.0`.
The conversion is exact; the division is one `flround`. -/
def satChan (c : ℕ) : ℚ := flround ((c : ℚ) / 255)

/-- The `f32` local `min` of `saturation` (`src/main.rs:55`). -/
def satMn (pixel : Pixel) : ℚ :=
  min (satChan pixel.b.val) (min (satChan pixel.r.val) (satChan pixel.g.val))

/-- The `f32` local `max` of `saturation` (`src/main.rs:56`). -/
def satMx (pixel : Pixel) : ℚ :=
  max (satChan pixel.b.val) (max (satChan pixel.r.val) (satChan pixel.g.val))

/-- The `f32` value `saturation * 255.0` of `src/main.rs:62-65`:
`luminance = (max + min) / 2.0`, `saturation = 1.0 - ((2.0 * luminance) - 1.0).abs()`,
then `saturation * 255.0`; each arithmetic `f32` operation is one `flround`,
`.abs()` is exact. -/
def satVal (pixel : Pixel) : ℚ :=
  flround (flround (1 -
    |flround (flround (2 * flround (flround (satMx pixel + satMn pixel) / 2)) - 1)|) * 255)

/-- `saturation` (`src/main.rs:50-66`). -/
def saturation (pixel : Pixel) : ℕ :=
  if satMx pixel = satMn pixel then 0 else f32toU16 (satVal pixel)

/-- The key function selected by `sort_image` (`src/main.rs:97-101`). -/
def pixel_property : SortBy → Pixel → ℕ
  | SortBy.Hue => hue
  | SortBy.Saturation => saturation
  | SortBy.Luminance => luminance

/-! ## Integer-side helpers for the analysis of `hue` and `saturation` -/

/-- The largest of the three RGB channels. -/
def maxCh (p : Pixel) : ℕ := max p.b.val (max p.r.val p.g.val)

/-- The smallest of the three RGB channels. -/
def minCh (p : Pixel) : ℕ := min p.b.val (min p.r.val p.g.val)

/-- The exact (infinite-precision) value of `255·(1 − |2·L − 1|)` computed by
`saturation`: the integer `255 − |maxCh + minCh − 255|`. -/
def satE (p : Pixel) : ℕ := 255 - ((maxCh p : ℤ) + (minCh p : ℤ) - 255).natAbs

/-- Standard HSL saturation scaled into `[0,255]` and truncated, as the spec
describes the Saturation metric: `S = (max−min)/(1−|2·L−1|)` on channels
scaled into `[0,1]`, with `L = (max+min)/2`; zero-chroma pixels map to 0. -/
def hslSaturationSpec (p : Pixel) : ℕ :=
  let mx : ℚ := (maxCh p : ℚ) / 255
  let mn : ℚ := (minCh p : ℚ) / 255
  if mx = mn then 0
  else (⌊(mx - mn) / (1 - |mx + mn - 1|) * 255⌋).toNat

/-! ## Error analysis of `saturation` -/

/-- Two-sided version of `flround_approx`, convenient for `linarith` chains. -/
theorem flround_close {x t : ℚ} (B C : ℚ) (h1 : t - B ≤ x) (h2 : x ≤ t + B)
    (h3 : -C ≤ x) (h4 : x ≤ C) :
    t - (B + C / 2 ^ 24) ≤ flround x ∧ flround x ≤ t + (B + C / 2 ^ 24) := by
  have hxt : |x - t| ≤ B := abs_le.mpr ⟨by linarith, by linarith⟩
  have hxC : |x| ≤ C := abs_le.mpr ⟨h3, h4⟩
  have h := flround_approx (x := x) (t := t) (C := C) B hxt hxC
  obtain ⟨hl, hr⟩ := abs_le.mp h
  exact ⟨by linarith, by linarith⟩

theorem satChan_err (c : ℕ) (hc : c ≤ 255) :
    |satChan c - (c : ℚ) / 255| ≤ 1 / 2 ^ 24 := by
  have h0 : (0 : ℚ) ≤ (c : ℚ) / 255 := by positivity
  have h1 : (c : ℚ) / 255 ≤ 1 := by
    rw [div_le_one (by norm_num : (0 : ℚ) < 255)]
    exact_mod_cast hc
  have h := flround_err ((c : ℚ) / 255)
  rw [abs_of_nonneg h0] at h
  unfold satChan
  calc |flround ((c : ℚ) / 255) - (c : ℚ) / 255| ≤ ((c : ℚ) / 255) / 2 ^ 24 := h
    _ ≤ 1 / 2 ^ 24 := by gcongr

theorem maxChQ (p : Pixel) : ((maxCh p : ℕ) : ℚ) / 255 =
    max ((p.b.val : ℚ) / 255) (max ((p.r.val : ℚ) / 255) ((p.g.val : ℚ) / 255)) := by
  unfold maxCh
  rw [max_div_div_right (by norm_num : (0 : ℚ) ≤ 255),
    max_div_div_right (by norm_num : (0 : ℚ) ≤ 255)]
  push_cast
  rfl

theorem minChQ (p : Pixel) : ((minCh p : ℕ) : ℚ) / 255 =
    min ((p.b.val : ℚ) / 255) (min ((p.r.val : ℚ) / 255) ((p.g.val : ℚ) / 255)) := by
  unfold minCh
  rw [min_div_div_right (by norm_num : (0 : ℚ) ≤ 255),
    min_div_div_right (by norm_num : (0 : ℚ) ≤ 255)]
  push_cast
  rfl

theorem satMx_err (p : Pixel) : |satMx p - (maxCh p : ℚ) / 255| ≤ 1 / 2 ^ 24 := by
  have hb := satChan_err p.b.val (by have := p.b.isLt; omega)
  have hr := satChan_err p.r.val (by have := p.r.isLt; omega)
  have hg := satChan_err p.g.val (by have := p.g.isLt; omega)
  unfold satMx
  rw [maxChQ]
  refine le_trans (abs_max_sub_max_le_max _ _ _ _) (max_le hb ?_)
  exact le_trans (abs_max_sub_max_le_max _ _ _ _) (max_le hr hg)

theorem satMn_err (p : Pixel) : |satMn p - (minCh p : ℚ) / 255| ≤ 1 / 2 ^ 24 := by
  have hb := satChan_err p.b.val (by have := p.b.isLt; omega)
  have hr := satChan_err p.r.val (by have := p.r.isLt; omega)
  have hg := satChan_err p.g.val (by have := p.g.isLt; omega)
  unfold satMn
  rw [minChQ]
  refine le_trans (abs_min_sub_min_le_max _ _ _ _) (max_le hb ?_)
  exact le_trans (abs_min_sub_min_le_max _ _ _ _) (max_le hr hg)

theorem satE_le_255 (p : Pixel) : satE p ≤ 255 := by
  unfold satE
  omega

theorem satE_pos (p : Pixel) (h : maxCh p ≠ minCh p) : 1 ≤ satE p := by
  have hb := p.b.isLt
  have hr := p.r.isLt
  have hg := p.g.isLt
  unfold satE maxCh minCh at *
  omega

theorem saturation_zero_chroma (p : Pixel) (h : maxCh p = minCh p) :
    saturation p = 0 := by
  have hb := p.b.isLt
  have hr := p.r.isLt
  have hg := p.g.isLt
  have heq : p.r.val = p.g.val ∧ p.g.val = p.b.val := by
    unfold maxCh minCh at h
    omega
  obtain ⟨h1, h2⟩ := heq
  unfold saturation satMx satMn
  rw [h1, h2]
  simp

/-- The cast of `satE` to `ℚ`, in the form produced by the error analysis. -/
theorem satE_cast (p : Pixel) :
    ((satE p : ℕ) : ℚ) = 255 - |(maxCh p : ℚ) + (minCh p : ℚ) - 255| := by
  have hb := p.b.isLt
  have hr := p.r.isLt
  have hg := p.g.isLt
  have hint : ((satE p : ℕ) : ℤ) = 255 - |((maxCh p : ℤ) + (minCh p : ℤ) - 255)| := by
    unfold satE maxCh minCh at *
    rw [Int.abs_eq_natAbs]
    omega
  calc ((satE p : ℕ) : ℚ) = (((satE p : ℕ) : ℤ) : ℚ) := by push_cast; ring
    _ = ((255 - |((maxCh p : ℤ) + (minCh p : ℤ) - 255)| : ℤ) : ℚ) := by rw [hint]
    _ = 255 - |(maxCh p : ℚ) + (minCh p : ℚ) - 255| := by push_cast [Int.cast_abs]; ring_nf

set_option maxHeartbeats 2000000 in
/-- The computed `f32` value `saturation * 255.0` is within `1/2` of the
exact integer `satE`. -/
theorem satVal_close (p : Pixel) (h : maxCh p ≠ minCh p) :
    |satVal p - (satE p : ℚ)| ≤ 1 / 2 := by
  have hbI := p.b.isLt
  have hrI := p.r.isLt
  have hgI := p.g.isLt
  have hch : minCh p < maxCh p ∧ maxCh p ≤ 255 ∧ 1 ≤ maxCh p + minCh p ∧
      maxCh p + minCh p ≤ 509 := by
    unfold maxCh minCh at *
    omega
  obtain ⟨hlt, hMx255, hsum1, hsum509⟩ := hch
  have hsumQ1 : (1 : ℚ) ≤ (maxCh p : ℚ) + (minCh p : ℚ) := by exact_mod_cast hsum1
  have hsumQ509 : (maxCh p : ℚ) + (minCh p : ℚ) ≤ 509 := by exact_mod_cast hsum509
  -- target of the sum of the two f32 extrema
  set SQ : ℚ := ((maxCh p : ℚ) + (minCh p : ℚ)) / 255 with hSQdef
  have hSQlo : 1 / 255 ≤ SQ := by rw [hSQdef]; gcongr
  have hSQhi : SQ ≤ 509 / 255 := by rw [hSQdef]; gcongr
  obtain ⟨hAl, hAr⟩ := abs_le.mp (satMx_err p)
  obtain ⟨hIl, hIr⟩ := abs_le.mp (satMn_err p)
  have hSQsplit : SQ = (maxCh p : ℚ) / 255 + (minCh p : ℚ) / 255 := by
    rw [hSQdef]; ring
  unfold satVal
  set s1 : ℚ := flround (satMx p + satMn p) with hs1def
  set l : ℚ := flround (s1 / 2) with hldef
  set t1 : ℚ := flround (2 * l) with ht1def
  set t2 : ℚ := flround (t1 - 1) with ht2def
  set s : ℚ := flround (1 - |t2|) with hsdef
  -- step 1: the sum
  obtain ⟨h1l, h1r⟩ := flround_close (x := satMx p + satMn p) (t := SQ)
    (2 / 2 ^ 24) 3 (by linarith) (by linarith) (by linarith) (by linarith)
  rw [← hs1def] at h1l h1r
  -- step 2: luminance = flround (s1 / 2)
  obtain ⟨h2l, h2r⟩ := flround_close (x := s1 / 2) (t := SQ / 2)
    (3 / 2 ^ 24) 2 (by linarith) (by linarith) (by linarith) (by linarith)
  rw [← hldef] at h2l h2r
  -- step 3: t1 = flround (2 * l)
  obtain ⟨h3l, h3r⟩ := flround_close (x := 2 * l) (t := SQ)
    (10 / 2 ^ 24) 3 (by linarith) (by linarith) (by linarith) (by linarith)
  rw [← ht1def] at h3l h3r
  -- step 4: t2 = flround (t1 - 1)
  obtain ⟨h4l, h4r⟩ := flround_close (x := t1 - 1) (t := SQ - 1)
    (13 / 2 ^ 24) 2 (by linarith) (by linarith) (by linarith) (by linarith)
  rw [← ht2def] at h4l h4r
  -- step 5: the absolute value, against D = |SQ - 1|
  set D : ℚ := |SQ - 1| with hDdef
  have hD0 : 0 ≤ D := abs_nonneg _
  have hDle : D ≤ 254 / 255 := abs_le.mpr ⟨by linarith, by linarith⟩
  have habs2 : |t2 - (SQ - 1)| ≤ 15 / 2 ^ 24 := abs_le.mpr ⟨by linarith, by linarith⟩
  have htri := le_trans (abs_abs_sub_abs_le_abs_sub t2 (SQ - 1)) habs2
  rw [← hDdef] at htri
  obtain ⟨h5l, h5r⟩ := abs_le.mp htri
  -- step 6: s = flround (1 - |t2|)
  obtain ⟨h6l, h6r⟩ := flround_close (x := 1 - |t2|) (t := 1 - D)
    (15 / 2 ^ 24) 2 (by linarith) (by linarith) (by linarith) (by linarith)
  rw [← hsdef] at h6l h6r
  -- step 7: the final value flround (s * 255)
  obtain ⟨h7l, h7r⟩ := flround_close (x := s * 255) (t := 255 * (1 - D))
    (4335 / 2 ^ 24) 256 (by linarith) (by linarith) (by linarith) (by linarith)
  -- identify the target with satE
  have hSQmul : (255 : ℚ) * SQ = (maxCh p : ℚ) + (minCh p : ℚ) := by
    rw [hSQdef]; field_simp
  have h255D : |(maxCh p : ℚ) + (minCh p : ℚ) - 255| = 255 * D := by
    rw [hDdef, show (maxCh p : ℚ) + (minCh p : ℚ) - 255 = 255 * (SQ - 1) by
      rw [← hSQmul]; ring, abs_mul, abs_of_pos (by norm_num : (0 : ℚ) < 255)]
  have hE : ((satE p : ℕ) : ℚ) = 255 * (1 - D) := by
    rw [satE_cast, h255D]; ring
  rw [hE]
  exact abs_le.mpr ⟨by linarith, by linarith⟩

/-- If the integer channels have non-zero chroma, the rounded `f32` extrema
are also distinct, so `saturation` takes its `else` branch. -/
theorem satMx_ne_satMn (p : Pixel) (h : maxCh p ≠ minCh p) :
    satMx p ≠ satMn p := by
  intro heq
  have hbI := p.b.isLt
  have hrI := p.r.isLt
  have hgI := p.g.isLt
  have hch : minCh p + 1 ≤ maxCh p := by
    unfold maxCh minCh at *
    omega
  have hchQ : (minCh p : ℚ) + 1 ≤ (maxCh p : ℚ) := by exact_mod_cast hch
  obtain ⟨hAl, hAr⟩ := abs_le.mp (satMx_err p)
  obtain ⟨hIl, hIr⟩ := abs_le.mp (satMn_err p)
  rw [heq] at hAl hAr
  have : (maxCh p : ℚ) / 255 - (minCh p : ℚ) / 255 ≤ 2 / 2 ^ 24 := by linarith
  have hgap : (1 : ℚ) / 255 ≤ (maxCh p : ℚ) / 255 - (minCh p : ℚ) / 255 := by
    linarith
  linarith

/-- `saturation` is within one below the exact integer value `satE` whenever
the pixel has non-zero chroma. -/
theorem saturation_sandwich (p : Pixel) (h : maxCh p ≠ minCh p) :
    satE p - 1 ≤ saturation p ∧ saturation p ≤ satE p := by
  have hclose := satVal_close p h
  obtain ⟨hl, hr⟩ := abs_le.mp hclose
  have hEpos := satE_pos p h
  have hE255 := satE_le_255 p
  unfold saturation
  rw [if_neg (satMx_ne_satMn p h)]
  constructor
  · apply f32toU16_ge _ _ (by omega)
    have hcast : ((satE p - 1 : ℕ) : ℚ) = (satE p : ℚ) - 1 := by
      push_cast [Nat.cast_sub hEpos]
      ring
    rw [hcast]
    linarith
  · apply f32toU16_le
    linarith

/-! ## Error analysis of `hue` -/

theorem flround_natCast (n : ℕ) (h : n ≤ 2 ^ 24) : flround (n : ℚ) = (n : ℚ) := by
  have h1 := flround_int (n : ℤ) (by omega)
  rwa [show (((n : ℤ) : ℚ)) = (n : ℚ) by push_cast; ring] at h1

theorem hueMxQ (p : Pixel) : hueMx p = (maxCh p : ℚ) := by
  unfold hueMx maxCh
  push_cast
  rfl

theorem hueMnQ (p : Pixel) : hueMn p = (minCh p : ℚ) := by
  unfold hueMn minCh
  push_cast
  rfl

set_option maxHeartbeats 2000000 in
/-- The `f32` value `hue * 60.0`, bounded: it always lies in
`[-61, 300 + 730/2^24]`, and when it is negative it is at most
`-60/255 + 121/2^24`. -/
theorem hueH60_bounds (p : Pixel) (h : maxCh p ≠ minCh p) :
    (-61 : ℚ) ≤ hueH60 p ∧ hueH60 p ≤ 300 + 730 / 2 ^ 24 ∧
      (hueH60 p < 0 → hueH60 p ≤ -(60 / 255) + 121 / 2 ^ 24) := by
  have hbI := p.b.isLt
  have hrI := p.r.isLt
  have hgI := p.g.isLt
  have hch : minCh p < maxCh p ∧ maxCh p ≤ 255 ∧ minCh p ≤ p.r.val ∧
      p.r.val ≤ maxCh p ∧ minCh p ≤ p.g.val ∧ p.g.val ≤ maxCh p ∧
      minCh p ≤ p.b.val ∧ p.b.val ≤ maxCh p := by
    unfold maxCh minCh at *
    omega
  obtain ⟨hlt, hMx255, hrlo, hrhi, hglo, hghi, hblo, hbhi⟩ := hch
  have hle : minCh p ≤ maxCh p := le_of_lt hlt
  set Dn : ℕ := maxCh p - minCh p with hDndef
  have hDn1 : 1 ≤ Dn := by omega
  have hDn255 : Dn ≤ 255 := by omega
  have hDq1 : (1 : ℚ) ≤ (Dn : ℚ) := by exact_mod_cast hDn1
  have hDq255 : (Dn : ℚ) ≤ 255 := by exact_mod_cast hDn255
  have hDqpos : (0 : ℚ) < (Dn : ℚ) := by linarith
  have hDrw : flround (hueMx p - hueMn p) = (Dn : ℚ) := by
    rw [hueMxQ, hueMnQ,
      show (maxCh p : ℚ) - (minCh p : ℚ) = (Dn : ℚ) by
        rw [hDndef, Nat.cast_sub hle]]
    exact flround_natCast Dn (by omega)
  -- generic channel-difference rounding
  have hsubQ : ∀ a b : ℕ, a < 256 → b < 256 →
      flround ((a : ℚ) - (b : ℚ)) = (a : ℚ) - (b : ℚ) := by
    intro a b ha hb
    have h2 : (a : ℚ) - (b : ℚ) = ((a - b : ℤ) : ℚ) := by push_cast; ring
    rw [h2]
    exact flround_int _ (by omega)
  unfold hueH60 hueH
  rw [hDrw]
  split_ifs with hbr1 hbr2
  · -- max == red
    rw [hsubQ _ _ hgI hbI]
    set X : ℚ := ((p.g.val : ℚ) - (p.b.val : ℚ)) / (Dn : ℚ) with hXdef
    have hXnum_le : (p.g.val : ℚ) - (p.b.val : ℚ) ≤ (Dn : ℚ) := by
      have : (p.g.val : ℤ) - (p.b.val : ℤ) ≤ (Dn : ℤ) := by omega
      exact_mod_cast this
    have hXnum_ge : -(Dn : ℚ) ≤ (p.g.val : ℚ) - (p.b.val : ℚ) := by
      have : -(Dn : ℤ) ≤ (p.g.val : ℤ) - (p.b.val : ℤ) := by omega
      exact_mod_cast this
    have hX1 : X ≤ 1 := by rw [hXdef, div_le_one hDqpos]; linarith
    have hX2 : -1 ≤ X := by
      rw [hXdef, le_div_iff₀ hDqpos]
      linarith
    have hXabs : |X| ≤ 1 := abs_le.mpr ⟨hX2, hX1⟩
    have hq0 : |flround X - X| ≤ 1 / 2 ^ 24 :=
      le_trans (flround_err X) (by gcongr)
    obtain ⟨hq0l, hq0r⟩ := abs_le.mp hq0
    obtain ⟨h60l, h60r⟩ := flround_close (x := flround X * 60) (t := X * 60)
      (60 / 2 ^ 24) 61 (by linarith) (by linarith) (by linarith) (by linarith)
    refine ⟨by linarith, by linarith, ?_⟩
    intro hneg
    -- the numerator must be negative: otherwise hue*60 is nonnegative
    rcases lt_trichotomy ((p.g.val : ℤ) - (p.b.val : ℤ)) 0 with hNlt | hNeq | hNgt
    · -- g < b : X ≤ -1/255
      have hXup : X ≤ -(1 / 255) := by
        rw [hXdef, div_le_iff₀ hDqpos]
        have h1 : (p.g.val : ℚ) - (p.b.val : ℚ) ≤ -1 := by
          have : (p.g.val : ℤ) - (p.b.val : ℤ) ≤ -1 := by omega
          exact_mod_cast this
        nlinarith
      linarith
    · -- g = b : the whole chain is exactly 0, contradicting h60 < 0
      exfalso
      have hgb : (p.g.val : ℚ) - (p.b.val : ℚ) = 0 := by
        have : (p.g.val : ℤ) - (p.b.val : ℤ) = 0 := hNeq
        exact_mod_cast this
      rw [hXdef, hgb, zero_div, flround_zero, zero_mul, flround_zero] at hneg
      exact absurd hneg (by norm_num)
    · -- g > b : X ≥ 1/255, so hue*60 > 0, contradicting h60 < 0
      exfalso
      have hXlo : (1 : ℚ) / 255 ≤ X := by
        rw [hXdef, le_div_iff₀ hDqpos]
        have h1 : (1 : ℚ) ≤ (p.g.val : ℚ) - (p.b.val : ℚ) := by
          have : (1 : ℤ) ≤ (p.g.val : ℤ) - (p.b.val : ℤ) := by omega
          exact_mod_cast this
        nlinarith
      linarith
  · -- max == green
    rw [hsubQ _ _ hbI hrI]
    set X : ℚ := ((p.b.val : ℚ) - (p.r.val : ℚ)) / (Dn : ℚ) with hXdef
    have hXnum_le : (p.b.val : ℚ) - (p.r.val : ℚ) ≤ (Dn : ℚ) := by
      have : (p.b.val : ℤ) - (p.r.val : ℤ) ≤ (Dn : ℤ) := by omega
      exact_mod_cast this
    have hXnum_ge : -(Dn : ℚ) ≤ (p.b.val : ℚ) - (p.r.val : ℚ) := by
      have : -(Dn : ℤ) ≤ (p.b.val : ℤ) - (p.r.val : ℤ) := by omega
      exact_mod_cast this
    have hX1 : X ≤ 1 := by rw [hXdef, div_le_one hDqpos]; linarith
    have hX2 : -1 ≤ X := by
      rw [hXdef, le_div_iff₀ hDqpos]
      linarith
    have hXabs : |X| ≤ 1 := abs_le.mpr ⟨hX2, hX1⟩
    have hq0 : |flround X - X| ≤ 1 / 2 ^ 24 :=
      le_trans (flround_err X) (by gcongr)
    obtain ⟨hq0l, hq0r⟩ := abs_le.mp hq0
    obtain ⟨hal, har⟩ := flround_close (x := 2 + flround X) (t := 2 + X)
      (1 / 2 ^ 24) 4 (by linarith) (by linarith) (by linarith) (by linarith)
    obtain ⟨h60l, h60r⟩ := flround_close
      (x := flround (2 + flround X) * 60) (t := (2 + X) * 60)
      (301 / 2 ^ 24) 181 (by linarith) (by linarith) (by linarith) (by linarith)
    refine ⟨by linarith, by linarith, ?_⟩
    intro hneg
    exfalso
    have : (0 : ℚ) < (2 + X) * 60 - 482 / 2 ^ 24 := by nlinarith
    linarith
  · -- max == blue (the source's final reachable arm)
    rw [hsubQ _ _ hrI hgI]
    set X : ℚ := ((p.r.val : ℚ) - (p.g.val : ℚ)) / (Dn : ℚ) with hXdef
    have hXnum_le : (p.r.val : ℚ) - (p.g.val : ℚ) ≤ (Dn : ℚ) := by
      have : (p.r.val : ℤ) - (p.g.val : ℤ) ≤ (Dn : ℤ) := by omega
      exact_mod_cast this
    have hXnum_ge : -(Dn : ℚ) ≤ (p.r.val : ℚ) - (p.g.val : ℚ) := by
      have : -(Dn : ℤ) ≤ (p.r.val : ℤ) - (p.g.val : ℤ) := by omega
      exact_mod_cast this
    have hX1 : X ≤ 1 := by rw [hXdef, div_le_one hDqpos]; linarith
    have hX2 : -1 ≤ X := by
      rw [hXdef, le_div_iff₀ hDqpos]
      linarith
    have hXabs : |X| ≤ 1 := abs_le.mpr ⟨hX2, hX1⟩
    have hq0 : |flround X - X| ≤ 1 / 2 ^ 24 :=
      le_trans (flround_err X) (by gcongr)
    obtain ⟨hq0l, hq0r⟩ := abs_le.mp hq0
    obtain ⟨hal, har⟩ := flround_close (x := 4 + flround X) (t := 4 + X)
      (1 / 2 ^ 24) 6 (by linarith) (by linarith) (by linarith) (by linarith)
    obtain ⟨h60l, h60r⟩ := flround_close
      (x := flround (4 + flround X) * 60) (t := (4 + X) * 60)
      (421 / 2 ^ 24) 301 (by linarith) (by linarith) (by linarith) (by linarith)
    refine ⟨by linarith, by linarith, ?_⟩
    intro hneg
    exfalso
    have : (0 : ℚ) < (4 + X) * 60 - 722 / 2 ^ 24 := by nlinarith
    linarith

/-- The Hue key is always strictly below 360. -/
theorem hue_le_359 (p : Pixel) : hue p ≤ 359 := by
  unfold hue
  split_ifs with hzc hneg
  · omega
  · -- negative branch: result is flround (h60 + 360)
    have hch : maxCh p ≠ minCh p := by
      intro he
      apply hzc
      rw [hueMxQ, hueMnQ, he]
    obtain ⟨hb1, hb2, hb3⟩ := hueH60_bounds p hch
    have hup := hb3 hneg
    obtain ⟨hfl, hfr⟩ := flround_close (x := hueH60 p + 360) (t := hueH60 p + 360)
      0 361 (by linarith) (by linarith) (by linarith) (by linarith)
    apply f32toU16_le
    push_cast
    linarith
  · -- nonnegative branch: result is h60 itself
    have hch : maxCh p ≠ minCh p := by
      intro he
      apply hzc
      rw [hueMxQ, hueMnQ, he]
    obtain ⟨hb1, hb2, hb3⟩ := hueH60_bounds p hch
    apply f32toU16_le
    push_cast
    linarith

/-- The Luminance key is always at most 255. -/
theorem luminance_le_255 (p : Pixel) : luminance p ≤ 255 := by
  have hr := p.r.isLt
  have hg := p.g.isLt
  have hb := p.b.isLt
  unfold luminance
  omega

/-! ## Run detection: `into_intervals` -/

/-- The loop of `into_intervals` (`src/main.rs:72-83`): `i` is the current
index, the `Option` is `interval_start`; reaching the end of the bitmap with
an open interval closes it at the length (`src/main.rs:81-83`). -/
def intoIntervalsGo : List Bool → ℕ → Option ℕ → List (ℕ × ℕ)
  | [], _, none => []
  | [], i, some s => [(s, i)]
  | bit :: rest, i, none =>
      if bit then intoIntervalsGo rest (i + 1) (some i)
      else intoIntervalsGo rest (i + 1) none
  | bit :: rest, i, some s =>
      if bit then intoIntervalsGo rest (i + 1) (some s)
      else (s, i) :: intoIntervalsGo rest (i + 1) none

/-- `into_intervals` (`src/main.rs:68-86`). -/
def into_intervals (bitmap : List Bool) : List (ℕ × ℕ) :=
  intoIntervalsGo bitmap 0 none

/-- Index `j` lies inside one of the half-open intervals. -/
def covered (j : ℕ) (ints : List (ℕ × ℕ)) : Prop :=
  ∃ pq ∈ ints, pq.1 ≤ j ∧ j < pq.2


theorem go_cons_true_none (rest : List Bool) (i : ℕ) :
    intoIntervalsGo (true :: rest) i none = intoIntervalsGo rest (i + 1) (some i) := rfl

theorem go_cons_false_none (rest : List Bool) (i : ℕ) :
    intoIntervalsGo (false :: rest) i none = intoIntervalsGo rest (i + 1) none := rfl

theorem go_cons_true_some (rest : List Bool) (i s : ℕ) :
    intoIntervalsGo (true :: rest) i (some s) = intoIntervalsGo rest (i + 1) (some s) := rfl

theorem go_cons_false_some (rest : List Bool) (i s : ℕ) :
    intoIntervalsGo (false :: rest) i (some s) =
      (s, i) :: intoIntervalsGo rest (i + 1) none := rfl

theorem covered_nil (j : ℕ) : ¬ covered j [] := by simp [covered]

theorem covered_cons (j : ℕ) (pq : ℕ × ℕ) (l : List (ℕ × ℕ)) :
    covered j (pq :: l) ↔ ((pq.1 ≤ j ∧ j < pq.2) ∨ covered j l) := by
  simp [covered]

theorem covered_singleton (j s e : ℕ) :
    covered j [(s, e)] ↔ (s ≤ j ∧ j < e) := by
  simp [covered]

theorem intoIntervalsGo_covered (bm : List Bool) : ∀ (i j : ℕ) (st : Option ℕ),
    (∀ s, st = some s → s < i) →
    (covered j (intoIntervalsGo bm i st) ↔
      ((i ≤ j ∧ j - i < bm.length ∧ bm.getD (j - i) false = true) ∨
        (∃ s, st = some s ∧ s ≤ j ∧ j < i))) := by
  induction bm with
  | nil =>
    intro i j st hst
    cases st with
    | none => simp [intoIntervalsGo, covered]
    | some s => simp [intoIntervalsGo, covered]
  | cons bit rest ih =>
    intro i j st hst
    have hshift : i + 1 ≤ j →
        ((j - (i + 1) < rest.length ∧ rest.getD (j - (i + 1)) false = true) ↔
          (j - i < (bit :: rest).length ∧ (bit :: rest).getD (j - i) false = true)) := by
      intro hij
      have hidx : j - i = (j - (i + 1)) + 1 := by omega
      rw [hidx, List.getD_cons_succ]
      simp only [List.length_cons]
      constructor
      · rintro ⟨h2, h3⟩
        exact ⟨by omega, h3⟩
      · rintro ⟨h2, h3⟩
        exact ⟨by omega, h3⟩
    have hhead : j - i = 0 → ((bit :: rest).getD (j - i) false = bit) := by
      intro h0
      rw [h0, List.getD_cons_zero]
    cases st with
    | none =>
      cases bit with
      | true =>
        rw [go_cons_true_none, ih (i + 1) j (some i)
          (by intro s hs; injection hs with h; omega)]
        constructor
        · rintro (⟨h1, h2, h3⟩ | ⟨s, hs, h4, h5⟩)
          · exact Or.inl ⟨by omega, ((hshift h1).mp ⟨h2, h3⟩).1, ((hshift h1).mp ⟨h2, h3⟩).2⟩
          · have heq : i = s := by injection hs
            exact Or.inl ⟨by omega, by simp; omega, by rw [hhead (by omega)]⟩
        · rintro (⟨h1, h2, h3⟩ | ⟨s, hs, h4, h5⟩)
          · rcases Nat.eq_or_lt_of_le h1 with heq | hlt
            · exact Or.inr ⟨i, rfl, by omega, by omega⟩
            · exact Or.inl ⟨by omega, ((hshift (by omega)).mpr ⟨h2, h3⟩).1,
                ((hshift (by omega)).mpr ⟨h2, h3⟩).2⟩
          · exact Option.noConfusion hs
      | false =>
        rw [go_cons_false_none, ih (i + 1) j none (by intro s hs; cases hs)]
        constructor
        · rintro (⟨h1, h2, h3⟩ | ⟨s, hs, h4, h5⟩)
          · exact Or.inl ⟨by omega, ((hshift h1).mp ⟨h2, h3⟩).1, ((hshift h1).mp ⟨h2, h3⟩).2⟩
          · exact Option.noConfusion hs
        · rintro (⟨h1, h2, h3⟩ | ⟨s, hs, h4, h5⟩)
          · rcases Nat.eq_or_lt_of_le h1 with heq | hlt
            · exfalso
              rw [hhead (by omega)] at h3
              exact Bool.false_ne_true h3
            · exact Or.inl ⟨by omega, ((hshift (by omega)).mpr ⟨h2, h3⟩).1,
                ((hshift (by omega)).mpr ⟨h2, h3⟩).2⟩
          · exact Option.noConfusion hs
    | some s =>
      have hsi : s < i := hst s rfl
      cases bit with
      | true =>
        rw [go_cons_true_some, ih (i + 1) j (some s)
          (by intro s' hs'; injection hs' with h; omega)]
        constructor
        · rintro (⟨h1, h2, h3⟩ | ⟨s', hs', h4, h5⟩)
          · exact Or.inl ⟨by omega, ((hshift h1).mp ⟨h2, h3⟩).1, ((hshift h1).mp ⟨h2, h3⟩).2⟩
          · have heq : s = s' := by injection hs'
            rcases Nat.lt_or_ge j i with hji | hji
            · exact Or.inr ⟨s, rfl, by omega, hji⟩
            · exact Or.inl ⟨by omega, by simp; omega, by rw [hhead (by omega)]⟩
        · rintro (⟨h1, h2, h3⟩ | ⟨s', hs', h4, h5⟩)
          · rcases Nat.eq_or_lt_of_le h1 with heq | hlt
            · exact Or.inr ⟨s, rfl, by omega, by omega⟩
            · exact Or.inl ⟨by omega, ((hshift (by omega)).mpr ⟨h2, h3⟩).1,
                ((hshift (by omega)).mpr ⟨h2, h3⟩).2⟩
          · have heq : s = s' := by injection hs'
            exact Or.inr ⟨s, rfl, by omega, by omega⟩
      | false =>
        rw [go_cons_false_some, covered_cons,
          ih (i + 1) j none (by intro s' hs'; cases hs')]
        constructor
        · rintro (⟨h1, h2⟩ | (⟨h1, h2, h3⟩ | ⟨s', hs', h4, h5⟩))
          · exact Or.inr ⟨s, rfl, h1, h2⟩
          · exact Or.inl ⟨by omega, ((hshift h1).mp ⟨h2, h3⟩).1, ((hshift h1).mp ⟨h2, h3⟩).2⟩
          · exact Option.noConfusion hs'
        · rintro (⟨h1, h2, h3⟩ | ⟨s', hs', h4, h5⟩)
          · rcases Nat.eq_or_lt_of_le h1 with heq | hlt
            · exfalso
              rw [hhead (by omega)] at h3
              exact Bool.false_ne_true h3
            · exact Or.inr (Or.inl ⟨by omega, ((hshift (by omega)).mpr ⟨h2, h3⟩).1,
                ((hshift (by omega)).mpr ⟨h2, h3⟩).2⟩)
          · have heq : s = s' := by injection hs'
            exact Or.inl ⟨by omega, by omega⟩


theorem intoIntervalsGo_bounds (bm : List Bool) : ∀ (i : ℕ) (st : Option ℕ),
    (∀ s, st = some s → s < i) →
    ∀ pq ∈ intoIntervalsGo bm i st,
      (st.getD i ≤ pq.1 ∧ pq.1 < pq.2 ∧ pq.2 ≤ i + bm.length) := by
  induction bm with
  | nil =>
    intro i st hst pq hpq
    cases st with
    | none => simp [intoIntervalsGo] at hpq
    | some s =>
      have hsi : s < i := hst s rfl
      simp [intoIntervalsGo] at hpq
      subst hpq
      simp
      omega
  | cons bit rest ih =>
    intro i st hst pq hpq
    cases st with
    | none =>
      cases bit with
      | true =>
        rw [go_cons_true_none] at hpq
        have h := ih (i + 1) (some i) (by intro s hs; injection hs with h; omega) pq hpq
        simp only [Option.getD_some] at h
        simp only [Option.getD_none, List.length_cons]
        exact ⟨by omega, h.2.1, by omega⟩
      | false =>
        rw [go_cons_false_none] at hpq
        have h := ih (i + 1) none (by intro s hs; cases hs) pq hpq
        simp only [Option.getD_none] at h
        simp only [Option.getD_none, List.length_cons]
        exact ⟨by omega, h.2.1, by omega⟩
    | some s =>
      have hsi : s < i := hst s rfl
      cases bit with
      | true =>
        rw [go_cons_true_some] at hpq
        have h := ih (i + 1) (some s) (by intro s' hs'; injection hs' with h; omega) pq hpq
        simp only [Option.getD_some] at h
        simp only [Option.getD_some, List.length_cons]
        exact ⟨h.1, h.2.1, by omega⟩
      | false =>
        rw [go_cons_false_some] at hpq
        simp only [Option.getD_some, List.length_cons]
        rcases List.mem_cons.mp hpq with heq | hmem
        · subst heq
          simp
          omega
        · have h := ih (i + 1) none (by intro s' hs'; cases hs') pq hmem
          simp only [Option.getD_none] at h
          exact ⟨by omega, h.2.1, by omega⟩

theorem intoIntervalsGo_pairwise (bm : List Bool) : ∀ (i : ℕ) (st : Option ℕ),
    (∀ s, st = some s → s < i) →
    List.Pairwise (fun pq qr => pq.2 ≤ qr.1) (intoIntervalsGo bm i st) := by
  induction bm with
  | nil =>
    intro i st hst
    cases st with
    | none => simp [intoIntervalsGo]
    | some s => simp [intoIntervalsGo]
  | cons bit rest ih =>
    intro i st hst
    cases st with
    | none =>
      cases bit with
      | true =>
        rw [go_cons_true_none]
        exact ih (i + 1) (some i) (by intro s hs; injection hs with h; omega)
      | false =>
        rw [go_cons_false_none]
        exact ih (i + 1) none (by intro s hs; cases hs)
    | some s =>
      have hsi : s < i := hst s rfl
      cases bit with
      | true =>
        rw [go_cons_true_some]
        exact ih (i + 1) (some s) (by intro s' hs'; injection hs' with h; omega)
      | false =>
        rw [go_cons_false_some]
        refine List.Pairwise.cons ?_ (ih (i + 1) none (by intro s' hs'; cases hs'))
        intro qr hqr
        have h := intoIntervalsGo_bounds rest (i + 1) none
          (by intro s' hs'; cases hs') qr hqr
        simp only [Option.getD_none] at h
        show i ≤ qr.1
        omega

theorem intoIntervalsGo_replicate_true (n : ℕ) : ∀ (i s : ℕ),
    intoIntervalsGo (List.replicate n true) i (some s) = [(s, i + n)] := by
  induction n with
  | zero => intro i s; simp [intoIntervalsGo]
  | succ n ihn =>
    intro i s
    rw [List.replicate_succ, go_cons_true_some, ihn (i + 1) s]
    congr 1
    congr 1
    omega

theorem into_intervals_replicate_true (n : ℕ) (h : 0 < n) :
    into_intervals (List.replicate n true) = [(0, n)] := by
  obtain ⟨m, rfl⟩ : ∃ m, n = m + 1 := ⟨n - 1, by omega⟩
  unfold into_intervals
  rw [List.replicate_succ, go_cons_true_none, intoIntervalsGo_replicate_true m 1 0]
  congr 2
  omega

theorem intoIntervalsGo_replicate_false (n : ℕ) : ∀ (i : ℕ),
    intoIntervalsGo (List.replicate n false) i none = [] := by
  induction n with
  | zero => intro i; simp [intoIntervalsGo]
  | succ n ihn =>
    intro i
    rw [List.replicate_succ, go_cons_false_none, ihn (i + 1)]

theorem into_intervals_replicate_false (n : ℕ) :
    into_intervals (List.replicate n false) = [] :=
  intoIntervalsGo_replicate_false n 0

/-- Top-level membership characterization of `into_intervals`. -/
theorem into_intervals_covered (bm : List Bool) (j : ℕ) :
    covered j (into_intervals bm) ↔ (j < bm.length ∧ bm.getD j false = true) := by
  unfold into_intervals
  rw [intoIntervalsGo_covered bm 0 j none (by intro s hs; cases hs)]
  simp

/-- Top-level bounds of `into_intervals`. -/
theorem into_intervals_bounds (bm : List Bool) :
    ∀ pq ∈ into_intervals bm, pq.1 < pq.2 ∧ pq.2 ≤ bm.length := by
  intro pq hpq
  have h := intoIntervalsGo_bounds bm 0 none (by intro s hs; cases hs) pq hpq
  simp only [Option.getD_none, Nat.zero_add] at h
  exact ⟨h.2.1, h.2.2⟩

/-- Top-level pairwise ordering of `into_intervals`. -/
theorem into_intervals_pairwise (bm : List Bool) :
    List.Pairwise (fun pq qr => pq.2 ≤ qr.1) (into_intervals bm) :=
  intoIntervalsGo_pairwise bm 0 none (by intro s hs; cases hs)


/-- The comparator of `pixels.sort_by` (`src/main.rs:122`):
`pixel_property(a).cmp(&pixel_property(b))`, i.e. ascending key order. -/
def keyLe (key : Pixel → ℕ) (a b : Pixel) : Bool := decide (key a ≤ key b)

theorem keyLe_trans (key : Pixel → ℕ) : ∀ a b c : Pixel,
    keyLe key a b = true → keyLe key b c = true → keyLe key a c = true := by
  intro a b c
  simp only [keyLe, decide_eq_true_eq]
  omega

theorem keyLe_total (key : Pixel → ℕ) : ∀ a b : Pixel,
    (keyLe key a b || keyLe key b a) = true := by
  intro a b
  simp only [keyLe, Bool.or_eq_true, decide_eq_true_eq]
  omega

/-- The inclusion predicate `accepted_range.contains(&value)`
(`src/main.rs:109-110`): `lower_threshold ≤ key ≤ higher_threshold`. -/
def inRange (key : Pixel → ℕ) (lower higher : ℕ) (px : Pixel) : Bool :=
  decide (lower ≤ key px) && decide (key px ≤ higher)

/-- The per-row bitmap (`src/main.rs:105-111`). -/
def pixel_bitmap (key : Pixel → ℕ) (lower higher : ℕ) (row : List Pixel) : List Bool :=
  row.map (inRange key lower higher)

/-- The pixels of one half-open index interval of a row
(`pixels` of `src/main.rs:118-121`). -/
def region (s e : ℕ) (row : List Pixel) : List Pixel := (row.drop s).take (e - s)

/-- Sorting one run in place (`src/main.rs:116-127`): read the run`s pixels,
stably sort them by key (`Vec::sort_by` is stable, modelled by
`List.mergeSort`), and write them back at the same indices. -/
def sortRun (key : Pixel → ℕ) (s e : ℕ) (row : List Pixel) : List Pixel :=
  row.take s ++ (region s e row).mergeSort (keyLe key) ++ row.drop e

/-- The whole run loop of one row (`src/main.rs:116-128`). -/
def applyRuns (key : Pixel → ℕ) (ints : List (ℕ × ℕ)) (row : List Pixel) : List Pixel :=
  ints.foldl (fun acc pq => sortRun key pq.1 pq.2 acc) row

/-- The body of `sort_image`'s per-row loop (`src/main.rs:104-128`): build
the inclusion bitmap, extract the runs, sort each run. -/
def sort_row (key : Pixel → ℕ) (lower higher : ℕ) (row : List Pixel) : List Pixel :=
  applyRuns key (into_intervals (pixel_bitmap key lower higher row)) row

theorem length_pixel_bitmap (key : Pixel → ℕ) (lower higher : ℕ) (row : List Pixel) :
    (pixel_bitmap key lower higher row).length = row.length :=
  List.length_map row _

theorem region_getElem? (s e k : ℕ) (row : List Pixel) :
    (region s e row)[k]? = if k < e - s then row[s + k]? else none := by
  unfold region
  rw [List.getElem?_take]
  split_ifs with h
  · rw [List.getElem?_drop]
  · rfl

theorem length_region (s e : ℕ) (row : List Pixel) (hs : s ≤ e) (he : e ≤ row.length) :
    (region s e row).length = e - s := by
  unfold region
  rw [List.length_take, List.length_drop]
  omega

theorem region_eq_of_agree (s e : ℕ) (X Y : List Pixel)
    (h : ∀ i, s ≤ i → i < e → X[i]? = Y[i]?) : region s e X = region s e Y := by
  apply List.ext_getElem?
  intro k
  rw [region_getElem?, region_getElem?]
  split_ifs with hk
  · exact h (s + k) (by omega) (by omega)
  · rfl

theorem getElem?_append3 {α : Type} (l1 l2 l3 : List α) (i : ℕ) :
    (l1 ++ l2 ++ l3)[i]? =
      if i < l1.length then l1[i]?
      else if i - l1.length < l2.length then l2[i - l1.length]?
      else l3[i - l1.length - l2.length]? := by
  rw [List.append_assoc, List.getElem?_append, List.getElem?_append]

theorem length_sortRun (key : Pixel → ℕ) (s e : ℕ) (row : List Pixel)
    (hse : s < e) (he : e ≤ row.length) :
    (sortRun key s e row).length = row.length := by
  unfold sortRun
  rw [List.length_append, List.length_append, List.length_mergeSort,
    length_region s e row (by omega) he, List.length_take, List.length_drop]
  omega

theorem getElem?_sortRun_outside (key : Pixel → ℕ) (s e : ℕ) (row : List Pixel)
    (hse : s < e) (he : e ≤ row.length) (i : ℕ) (h : i < s ∨ e ≤ i) :
    (sortRun key s e row)[i]? = row[i]? := by
  have hs : s ≤ row.length := by omega
  have hlt : (row.take s).length = s := by rw [List.length_take]; omega
  have hlm : ((region s e row).mergeSort (keyLe key)).length = e - s := by
    rw [List.length_mergeSort, length_region s e row (by omega) he]
  unfold sortRun
  rw [getElem?_append3, hlt, hlm]
  rcases h with h | h
  · rw [if_pos h, List.getElem?_take, if_pos h]
  · rw [if_neg (by omega), if_neg (by omega), List.getElem?_drop]
    congr 1
    omega

theorem region_sortRun_self (key : Pixel → ℕ) (s e : ℕ) (row : List Pixel)
    (hse : s < e) (he : e ≤ row.length) :
    region s e (sortRun key s e row) = (region s e row).mergeSort (keyLe key) := by
  have hs : s ≤ row.length := by omega
  have hlt : (row.take s).length = s := by rw [List.length_take]; omega
  have hlm : ((region s e row).mergeSort (keyLe key)).length = e - s := by
    rw [List.length_mergeSort, length_region s e row (by omega) he]
  apply List.ext_getElem?
  intro k
  rw [region_getElem?]
  split_ifs with hk
  · unfold sortRun
    rw [getElem?_append3, hlt, hlm, if_neg (by omega), if_pos (by omega)]
    congr 1
    omega
  · rw [eq_comm, List.getElem?_eq_none]
    omega

theorem length_applyRuns (key : Pixel → ℕ) (ints : List (ℕ × ℕ)) : ∀ row : List Pixel,
    (∀ pq ∈ ints, pq.1 < pq.2 ∧ pq.2 ≤ row.length) →
    (applyRuns key ints row).length = row.length := by
  induction ints with
  | nil => intro row _; rfl
  | cons qr rest ih =>
    intro row hB
    have hq := hB qr (List.mem_cons_self qr rest)
    have hlen : (sortRun key qr.1 qr.2 row).length = row.length :=
      length_sortRun key qr.1 qr.2 row hq.1 hq.2
    show (applyRuns key rest (sortRun key qr.1 qr.2 row)).length = row.length
    rw [ih (sortRun key qr.1 qr.2 row)
      (by intro pq hpq; rw [hlen]; exact hB pq (List.mem_cons_of_mem qr hpq)), hlen]

theorem getElem?_applyRuns_outside (key : Pixel → ℕ) (ints : List (ℕ × ℕ)) :
    ∀ (row : List Pixel) (i : ℕ),
    (∀ pq ∈ ints, pq.1 < pq.2 ∧ pq.2 ≤ row.length) →
    (∀ pq ∈ ints, ¬(pq.1 ≤ i ∧ i < pq.2)) →
    (applyRuns key ints row)[i]? = row[i]? := by
  induction ints with
  | nil => intro row i _ _; rfl
  | cons qr rest ih =>
    intro row i hB hout
    have hq := hB qr (List.mem_cons_self qr rest)
    have hqi := hout qr (List.mem_cons_self qr rest)
    have hlen : (sortRun key qr.1 qr.2 row).length = row.length :=
      length_sortRun key qr.1 qr.2 row hq.1 hq.2
    show (applyRuns key rest (sortRun key qr.1 qr.2 row))[i]? = row[i]?
    rw [ih (sortRun key qr.1 qr.2 row) i
      (by intro pq hpq; rw [hlen]; exact hB pq (List.mem_cons_of_mem qr hpq))
      (by intro pq hpq; exact hout pq (List.mem_cons_of_mem qr hpq))]
    exact getElem?_sortRun_outside key qr.1 qr.2 row hq.1 hq.2 i (by omega)

theorem region_applyRuns (key : Pixel → ℕ) (ints : List (ℕ × ℕ)) :
    ∀ row : List Pixel,
    (∀ pq ∈ ints, pq.1 < pq.2 ∧ pq.2 ≤ row.length) →
    List.Pairwise (fun pq qr => pq.2 ≤ qr.1) ints →
    ∀ pq ∈ ints,
      region pq.1 pq.2 (applyRuns key ints row) =
        (region pq.1 pq.2 row).mergeSort (keyLe key) := by
  induction ints with
  | nil => intro row _ _ pq hpq; exact absurd hpq (List.not_mem_nil pq)
  | cons qr rest ih =>
    intro row hB hP pq hpq
    have hq := hB qr (List.mem_cons_self qr rest)
    have hlen : (sortRun key qr.1 qr.2 row).length = row.length :=
      length_sortRun key qr.1 qr.2 row hq.1 hq.2
    have hBrest : ∀ pq ∈ rest, pq.1 < pq.2 ∧ pq.2 ≤ (sortRun key qr.1 qr.2 row).length := by
      intro pq hpq
      rw [hlen]
      exact hB pq (List.mem_cons_of_mem qr hpq)
    have hPrest : List.Pairwise (fun pq qr => pq.2 ≤ qr.1) rest :=
      List.Pairwise.of_cons hP
    have hHead : ∀ pq ∈ rest, qr.2 ≤ pq.1 :=
      fun pq hpq => List.rel_of_pairwise_cons hP hpq
    rcases List.mem_cons.mp hpq with heq | hmem
    · subst heq
      show region pq.1 pq.2 (applyRuns key rest (sortRun key pq.1 pq.2 row)) = _
      have hagree : ∀ i, pq.1 ≤ i → i < pq.2 →
          (applyRuns key rest (sortRun key pq.1 pq.2 row))[i]? =
            (sortRun key pq.1 pq.2 row)[i]? := by
        intro i h1 h2
        apply getElem?_applyRuns_outside key rest _ i hBrest
        intro st hst
        have := hHead st hst
        omega
      rw [region_eq_of_agree pq.1 pq.2 _ _ hagree]
      exact region_sortRun_self key pq.1 pq.2 row hq.1 hq.2
    · show region pq.1 pq.2 (applyRuns key rest (sortRun key qr.1 qr.2 row)) = _
      rw [ih (sortRun key qr.1 qr.2 row) hBrest hPrest pq hmem]
      congr 1
      apply region_eq_of_agree
      intro i h1 h2
      apply getElem?_sortRun_outside key qr.1 qr.2 row hq.1 hq.2
      have := hHead pq hmem
      omega


theorem into_intervals_bounds_row (key : Pixel → ℕ) (lower higher : ℕ) (row : List Pixel) :
    ∀ pq ∈ into_intervals (pixel_bitmap key lower higher row),
      pq.1 < pq.2 ∧ pq.2 ≤ row.length := by
  intro pq hpq
  have h := into_intervals_bounds _ pq hpq
  rwa [length_pixel_bitmap] at h

theorem length_sort_row (key : Pixel → ℕ) (lower higher : ℕ) (row : List Pixel) :
    (sort_row key lower higher row).length = row.length :=
  length_applyRuns key _ row (into_intervals_bounds_row key lower higher row)

theorem sort_row_region (key : Pixel → ℕ) (lower higher : ℕ) (row : List Pixel) :
    ∀ pq ∈ into_intervals (pixel_bitmap key lower higher row),
      region pq.1 pq.2 (sort_row key lower higher row) =
        (region pq.1 pq.2 row).mergeSort (keyLe key) :=
  region_applyRuns key _ row (into_intervals_bounds_row key lower higher row)
    (into_intervals_pairwise _)

theorem sort_row_outside (key : Pixel → ℕ) (lower higher : ℕ) (row : List Pixel) (i : ℕ)
    (h : ∀ pq ∈ into_intervals (pixel_bitmap key lower higher row),
      ¬(pq.1 ≤ i ∧ i < pq.2)) :
    (sort_row key lower higher row)[i]? = row[i]? :=
  getElem?_applyRuns_outside key _ row i (into_intervals_bounds_row key lower higher row) h

/-- Every pixel of a run`s index range is in threshold range. -/
theorem region_all_inRange (key : Pixel → ℕ) (lower higher : ℕ) (row : List Pixel) :
    ∀ pq ∈ into_intervals (pixel_bitmap key lower higher row),
      ∀ px ∈ region pq.1 pq.2 row, inRange key lower higher px = true := by
  intro pq hpq px hpx
  have hB := into_intervals_bounds_row key lower higher row pq hpq
  obtain ⟨k, hk⟩ := List.mem_iff_getElem?.mp hpx
  rw [region_getElem?] at hk
  by_cases hklt : k < pq.2 - pq.1
  · rw [if_pos hklt] at hk
    have hcov : covered (pq.1 + k) (into_intervals (pixel_bitmap key lower higher row)) :=
      ⟨pq, hpq, by omega, by omega⟩
    have hbit := (into_intervals_covered _ _).mp hcov
    rw [List.getD_eq_getElem?_getD] at hbit
    unfold pixel_bitmap at hbit
    rw [List.getElem?_map, hk] at hbit
    simpa using hbit.2
  · rw [if_neg hklt] at hk
    exact Option.noConfusion hk

/-- After sorting, the inclusion bitmap is unchanged: inside a run the
pixels are permuted among in-range pixels, outside they are untouched. -/
theorem pixel_bitmap_sort_row (key : Pixel → ℕ) (lower higher : ℕ) (row : List Pixel) :
    pixel_bitmap key lower higher (sort_row key lower higher row) =
      pixel_bitmap key lower higher row := by
  apply List.ext_getElem?
  intro i
  conv_lhs => rw [pixel_bitmap]
  conv_rhs => rw [pixel_bitmap]
  rw [List.getElem?_map, List.getElem?_map]
  by_cases hcov : covered i (into_intervals (pixel_bitmap key lower higher row))
  · obtain ⟨pq, hpq, h1, h2⟩ := hcov
    have hB := into_intervals_bounds_row key lower higher row pq hpq
    have hilen : i < row.length := by omega
    have hrlen : i < (sort_row key lower higher row).length := by
      rw [length_sort_row]; omega
    rw [List.getElem?_eq_getElem hrlen, List.getElem?_eq_getElem hilen]
    -- the original pixel at i is in range
    have hbit := (into_intervals_covered (pixel_bitmap key lower higher row) i).mp
      ⟨pq, hpq, h1, h2⟩
    rw [List.getD_eq_getElem?_getD, pixel_bitmap, List.getElem?_map,
      List.getElem?_eq_getElem hilen] at hbit
    have horig : inRange key lower higher row[i] = true := by simpa using hbit.2
    -- the sorted pixel at i is a member of the run, hence in range
    have hreg := sort_row_region key lower higher row pq hpq
    have hidx : (region pq.1 pq.2 (sort_row key lower higher row))[i - pq.1]? =
        some ((sort_row key lower higher row)[i]) := by
      rw [region_getElem?, if_pos (by omega),
        show pq.1 + (i - pq.1) = i by omega, List.getElem?_eq_getElem hrlen]
    have hmem0 : (sort_row key lower higher row)[i] ∈
        region pq.1 pq.2 (sort_row key lower higher row) :=
      List.mem_iff_getElem?.mpr ⟨i - pq.1, hidx⟩
    have hmem2 : (sort_row key lower higher row)[i] ∈ region pq.1 pq.2 row := by
      rw [hreg] at hmem0
      exact (List.mergeSort_perm (region pq.1 pq.2 row) (keyLe key)).mem_iff.mp hmem0
    have hnew : inRange key lower higher ((sort_row key lower higher row)[i]) = true :=
      region_all_inRange key lower higher row pq hpq _ hmem2
    simp [horig, hnew]
  · rw [sort_row_outside key lower higher row i (by
      intro pq hpq hin
      exact hcov ⟨pq, hpq, hin.1, hin.2⟩)]


/-- Writing back an already-sorted run leaves the row unchanged. -/
theorem sortRun_id (key : Pixel → ℕ) (s e : ℕ) (row : List Pixel)
    (_hse : s < e) (_he : e ≤ row.length)
    (hsorted : List.Pairwise (fun a b => keyLe key a b = true) (region s e row)) :
    sortRun key s e row = row := by
  unfold sortRun
  rw [List.mergeSort_of_sorted hsorted]
  have h2 : row.drop e = (row.drop s).drop (e - s) := by
    rw [List.drop_drop]
    congr 1
    omega
  calc row.take s ++ region s e row ++ row.drop e
      = row.take s ++ (region s e row ++ row.drop e) := by rw [List.append_assoc]
    _ = row.take s ++ row.drop s := by
        rw [h2]
        unfold region
        rw [List.take_append_drop]
    _ = row := List.take_append_drop s row

/-- A run loop over already-sorted runs is the identity. -/
theorem applyRuns_id (key : Pixel → ℕ) (ints : List (ℕ × ℕ)) : ∀ row : List Pixel,
    (∀ pq ∈ ints, pq.1 < pq.2 ∧ pq.2 ≤ row.length) →
    (∀ pq ∈ ints, List.Pairwise (fun a b => keyLe key a b = true) (region pq.1 pq.2 row)) →
    applyRuns key ints row = row := by
  induction ints with
  | nil => intro row _ _; rfl
  | cons qr rest ih =>
    intro row hB hS
    have hq := hB qr (List.mem_cons_self qr rest)
    have hid : sortRun key qr.1 qr.2 row = row :=
      sortRun_id key qr.1 qr.2 row hq.1 hq.2 (hS qr (List.mem_cons_self qr rest))
    show applyRuns key rest (sortRun key qr.1 qr.2 row) = row
    rw [hid]
    exact ih row (fun pq hpq => hB pq (List.mem_cons_of_mem qr hpq))
      (fun pq hpq => hS pq (List.mem_cons_of_mem qr hpq))

/-- Idempotence: sorting a row twice with the same key and thresholds is the
same as sorting it once. -/
theorem sort_row_idem (key : Pixel → ℕ) (lower higher : ℕ) (row : List Pixel) :
    sort_row key lower higher (sort_row key lower higher row) =
      sort_row key lower higher row := by
  conv_lhs => rw [sort_row]
  rw [pixel_bitmap_sort_row]
  apply applyRuns_id
  · intro pq hpq
    have h := into_intervals_bounds_row key lower higher row pq hpq
    rw [length_sort_row]
    exact h
  · intro pq hpq
    rw [sort_row_region key lower higher row pq hpq]
    exact List.sorted_mergeSort (keyLe_trans key) (keyLe_total key) (region pq.1 pq.2 row)

/-- Stability of the per-run sort, expressed as preservation of the subsequence
of pixels with any fixed key value. -/
theorem filter_mergeSort_stable (key : Pixel → ℕ) (k : ℕ) (l : List Pixel) :
    (l.mergeSort (keyLe key)).filter (fun px => decide (key px = k)) =
      l.filter (fun px => decide (key px = k)) := by
  have hall : ∀ x ∈ l.filter (fun px => decide (key px = k)), key x = k := by
    intro x hx
    simpa using List.of_mem_filter hx
  have hpair : List.Pairwise (fun a b => keyLe key a b = true)
      (l.filter (fun px => decide (key px = k))) := by
    apply List.pairwise_of_forall_mem_list
    intro a ha b hb
    have h1 := hall a ha
    have h2 := hall b hb
    simp [keyLe, h1, h2]
  have hsub2 : (l.filter (fun px => decide (key px = k))).Sublist (l.mergeSort (keyLe key)) :=
    List.sublist_mergeSort (keyLe_trans key) (keyLe_total key) hpair (List.filter_sublist l)
  have hself : (l.filter (fun px => decide (key px = k))).filter
      (fun px => decide (key px = k)) = l.filter (fun px => decide (key px = k)) := by
    rw [List.filter_eq_self]
    intro a ha
    exact List.of_mem_filter (p := fun px => decide (key px = k)) ha
  have hsub3 : (l.filter (fun px => decide (key px = k))).Sublist
      ((l.mergeSort (keyLe key)).filter (fun px => decide (key px = k))) := by
    rw [← hself]
    exact hsub2.filter _
  have hlen : ((l.mergeSort (keyLe key)).filter (fun px => decide (key px = k))).length =
      (l.filter (fun px => decide (key px = k))).length :=
    ((List.mergeSort_perm l (keyLe key)).filter _).length_eq
  exact (hsub3.eq_of_length hlen.symm).symm

/-! ## The image-level driver -/

/-- One iteration of `sort_image`'s row loop (`src/main.rs:103-129`): row `y`
of the grid is replaced by its sorted version; no other row is touched. -/
def sortImageStep (key : Pixel → ℕ) (lower higher : ℕ)
    (grid : List (List Pixel)) (y : ℕ) : List (List Pixel) :=
  grid.set y (sort_row key lower higher (grid.getD y []))

/-- The in-memory core of `sort_image` (`src/main.rs:88-129`): the loop
`for yi in 0..height` applied to a row-major grid.  Decoding the input file
and saving the result (`src/main.rs:94` and `131-134`) belong to the excluded
I/O layer. -/
def sort_image (key : Pixel → ℕ) (lower higher : ℕ)
    (grid : List (List Pixel)) : List (List Pixel) :=
  (List.range grid.length).foldl (sortImageStep key lower higher) grid

theorem length_sortImageStep (key : Pixel → ℕ) (lower higher : ℕ)
    (grid : List (List Pixel)) (y : ℕ) :
    (sortImageStep key lower higher grid y).length = grid.length :=
  List.length_set grid y _

theorem getElem?_sortImageStep_ne (key : Pixel → ℕ) (lower higher : ℕ)
    (grid : List (List Pixel)) (y y' : ℕ) (h : y' ≠ y) :
    (sortImageStep key lower higher grid y)[y']? = grid[y']? :=
  List.getElem?_set_ne (Ne.symm h)

theorem foldl_sortImageStep_getElem? (key : Pixel → ℕ) (lower higher : ℕ) :
    ∀ (ys : List ℕ) (g : List (List Pixel)) (y : ℕ), ys.Nodup →
    ((ys.foldl (sortImageStep key lower higher) g)[y]? =
      if y ∈ ys then (g[y]?).map (sort_row key lower higher) else g[y]?) := by
  intro ys
  induction ys with
  | nil => intro g y _; simp
  | cons z zs ih =>
    intro g y hnd
    have hz : z ∉ zs := (List.nodup_cons.mp hnd).1
    have hzs : zs.Nodup := (List.nodup_cons.mp hnd).2
    show (zs.foldl (sortImageStep key lower higher)
      (sortImageStep key lower higher g z))[y]? = _
    rw [ih (sortImageStep key lower higher g z) y hzs]
    by_cases hy : y = z
    · subst hy
      rw [if_neg hz, if_pos (List.mem_cons_self y zs)]
      unfold sortImageStep
      rw [List.getElem?_set]
      by_cases hlt : y < g.length
      · rw [if_pos rfl, if_pos hlt, List.getElem?_eq_getElem hlt]
        have hgetD : g.getD y [] = g[y] := by
          rw [List.getD_eq_getElem?_getD, List.getElem?_eq_getElem hlt]
          rfl
        rw [hgetD]
        rfl
      · rw [if_pos rfl, if_neg hlt, List.getElem?_eq_none (by omega)]
        rfl
    · rw [getElem?_sortImageStep_ne key lower higher g z y hy]
      by_cases hmem : y ∈ zs
      · rw [if_pos hmem, if_pos (List.mem_cons_of_mem z hmem)]
      · rw [if_neg hmem, if_neg (by
          intro hc
          rcases List.mem_cons.mp hc with hc | hc
          · exact hy hc
          · exact hmem hc)]

theorem sort_image_getElem? (key : Pixel → ℕ) (lower higher : ℕ)
    (grid : List (List Pixel)) (y : ℕ) :
    (sort_image key lower higher grid)[y]? =
      (grid[y]?).map (sort_row key lower higher) := by
  unfold sort_image
  rw [foldl_sortImageStep_getElem? key lower higher (List.range grid.length) grid y
    (List.nodup_range grid.length)]
  by_cases hy : y < grid.length
  · rw [if_pos (List.mem_range.mpr hy)]
  · rw [if_neg (by simp [List.mem_range]; omega), List.getElem?_eq_none (by omega)]
    rfl

theorem length_sort_image (key : Pixel → ℕ) (lower higher : ℕ)
    (grid : List (List Pixel)) :
    (sort_image key lower higher grid).length = grid.length := by
  unfold sort_image
  generalize List.range grid.length = ys
  induction ys generalizing grid with
  | nil => rfl
  | cons z zs ih =>
    show (zs.foldl (sortImageStep key lower higher)
      (sortImageStep key lower higher grid z)).length = grid.length
    rw [ih (sortImageStep key lower higher grid z), length_sortImageStep]


/-! ## The batch driver -/

/-- The error message printed for a failing item (`src/main.rs:186`). -/
def errMsg (path : String) : String := "ERROR: Failed to sort image " ++ path ++ "."

/-- The batch loop of `main` (`src/main.rs:184-189`): each failing item is
reported to stderr and the loop continues with the remaining items; after the
loop `main` falls off its end, so the process exit status is 0 regardless of
how many items failed.  `ok path` abstracts whether `sort_image` succeeds on
`path`.  The result is the list of error messages printed and the process
exit status. -/
def processBatch (ok : String → Bool) : List String → List String × ℕ
  | [] => ([], 0)
  | path :: rest =>
      let r := processBatch ok rest
      ((if ok path then [] else [errMsg path]) ++ r.1, r.2)

theorem processBatch_messages (ok : String → Bool) (paths : List String) :
    (processBatch ok paths).1 = (paths.filter (fun p => !ok p)).map errMsg := by
  induction paths with
  | nil => rfl
  | cons path rest ih =>
    show ((if ok path then [] else [errMsg path]) ++ (processBatch ok rest).1) = _
    rw [ih, List.filter_cons]
    by_cases h : ok path
    · simp [h]
    · simp [h]

theorem processBatch_exit (ok : String → Bool) (paths : List String) :
    (processBatch ok paths).2 = 0 := by
  induction paths with
  | nil => rfl
  | cons path rest ih => exact ih


/-! ## The claims -/

theorem hslSaturationSpec_example : hslSaturationSpec ⟨255, 128, 128, 0⟩ = 255 := by
  have h1 : maxCh ⟨255, 128, 128, 0⟩ = 255 := by decide
  have h2 : minCh ⟨255, 128, 128, 0⟩ = 128 := by decide
  simp only [hslSaturationSpec, h1, h2]
  rw [if_neg (by norm_num)]
  have hval : (((255 : ℕ) : ℚ) / 255 - ((128 : ℕ) : ℚ) / 255) /
      (1 - |((255 : ℕ) : ℚ) / 255 + ((128 : ℕ) : ℚ) / 255 - 1|) * 255 = 255 := by
    push_cast
    rw [show |(255 : ℚ) / 255 + 128 / 255 - 1| = 128 / 255 by
      rw [abs_of_pos (by norm_num)]; norm_num]
    norm_num
  rw [hval, show (255 : ℚ) = ((255 : ℤ) : ℚ) by norm_num, Int.floor_intCast]
  rfl

/-- C1 (corrected): counterexample.  At the pixel (255,128,128,0) the code's
Saturation key is at most 127 (its exact value is 127), while the standard
HSL saturation scaled into [0,255] is 255: the code computes the
lightness-complement `1 − |2L − 1|`, not HSL saturation. -/
theorem claim_C1_counterexample :
    saturation ⟨255, 128, 128, 0⟩ ≠ hslSaturationSpec ⟨255, 128, 128, 0⟩ := by
  have hspec := hslSaturationSpec_example
  have hband := saturation_sandwich ⟨255, 128, 128, 0⟩ (by decide)
  have hE : satE ⟨255, 128, 128, 0⟩ = 127 := by decide
  rw [hspec]
  omega

/-- C1 (amended): for every RGBA pixel, the Saturation metric key is the
value `255·(1 − |2·L − 1|)` (the lightness-complement factor of the HSL
formulas, with `L = (max+min)/(2·255)`), computed in `f32` and truncated:
it lies within one below the exact integer `255 − |max + min − 255|`; and
any pixel with zero chroma (max channel equals min channel) maps to key 0. -/
theorem claim_C1 (p : Pixel) :
    (maxCh p = minCh p → saturation p = 0) ∧
    (maxCh p ≠ minCh p →
      satE p - 1 ≤ saturation p ∧ saturation p ≤ satE p) :=
  ⟨saturation_zero_chroma p, saturation_sandwich p⟩

theorem claim_C1_witness :
    (saturation ⟨10, 10, 10, 3⟩ = 0) ∧
    (satE ⟨255, 128, 128, 0⟩ - 1 ≤ saturation ⟨255, 128, 128, 0⟩ ∧
      saturation ⟨255, 128, 128, 0⟩ ≤ satE ⟨255, 128, 128, 0⟩) :=
  ⟨(claim_C1 ⟨10, 10, 10, 3⟩).1 (by decide),
    (claim_C1 ⟨255, 128, 128, 0⟩).2 (by decide)⟩

/-- C2: for every RGBA pixel the key functions stay in their declared
domains: the Luminance and Saturation keys are in [0,255] (they are natural
numbers, so the lower bound is by type), and the Hue key is in [0,360),
strictly below 360. -/
theorem claim_C2 (p : Pixel) :
    pixel_property SortBy.Luminance p ≤ 255 ∧
    pixel_property SortBy.Saturation p ≤ 255 ∧
    pixel_property SortBy.Hue p < 360 := by
  refine ⟨luminance_le_255 p, ?_, ?_⟩
  · show saturation p ≤ 255
    by_cases h : maxCh p = minCh p
    · rw [saturation_zero_chroma p h]
      omega
    · have h1 := (saturation_sandwich p h).2
      have h2 := satE_le_255 p
      omega
  · show hue p < 360
    have := hue_le_359 p
    omega

/-- C3 (corrected): counterexample.  With a single item that fails, the
batch driver reports the failure but the process exit status is 0, not
non-zero as the claim states. -/
theorem claim_C3_counterexample :
    (processBatch (fun _ => false) ["a.png"]).1 = [errMsg "a.png"] ∧
    (processBatch (fun _ => false) ["a.png"]).2 = 0 :=
  ⟨rfl, rfl⟩

/-- C3 (amended): when the batch driver is given a list of images, it
reports exactly the failing items (in order, including every item after a
failure — no failure aborts the batch), but the process exit status is 0
even when items failed. -/
theorem claim_C3 (ok : String → Bool) (paths : List String) :
    (processBatch ok paths).1 = (paths.filter (fun p => !ok p)).map errMsg ∧
    (processBatch ok paths).2 = 0 :=
  ⟨processBatch_messages ok paths, processBatch_exit ok paths⟩

/-- C4 (corrected): counterexample.  The all-true bitmap of length 0 (the
empty bitmap) yields the empty sequence of runs, not the single interval
[0, 0) that the claim literally requires. -/
theorem claim_C4_counterexample :
    into_intervals (List.replicate 0 true) ≠ [(0, 0)] := by
  decide

/-- C4 (amended): for every boolean bitmap, the union of the returned run
intervals is exactly the set of indices where the bitmap is true; the runs
are non-empty, within bounds, pairwise non-overlapping and listed in
ascending start order; an all-true bitmap of positive length N yields
exactly the single interval [0, N), while an all-false (or empty) bitmap
yields the empty sequence. -/
theorem claim_C4 :
    (∀ bm : List Bool,
      (∀ j, covered j (into_intervals bm) ↔ (j < bm.length ∧ bm.getD j false = true)) ∧
      List.Pairwise (fun pq qr => pq.2 ≤ qr.1 ∧ pq.1 < qr.1) (into_intervals bm) ∧
      (∀ pq ∈ into_intervals bm, pq.1 < pq.2 ∧ pq.2 ≤ bm.length)) ∧
    (∀ n : ℕ, 0 < n → into_intervals (List.replicate n true) = [(0, n)]) ∧
    (∀ n : ℕ, into_intervals (List.replicate n false) = []) := by
  refine ⟨fun bm => ⟨into_intervals_covered bm, ?_, into_intervals_bounds bm⟩,
    into_intervals_replicate_true, into_intervals_replicate_false⟩
  have hp := into_intervals_pairwise bm
  have hb := into_intervals_bounds bm
  apply List.Pairwise.imp_of_mem ?_ hp
  intro a b ha _hb hr
  have := hb a ha
  exact ⟨hr, by omega⟩

theorem claim_C4_witness :
    0 < 3 ∧ into_intervals (List.replicate 3 true) = [(0, 3)] :=
  ⟨by decide, claim_C4.2.1 3 (by decide)⟩

/-- C5: for every row, metric and threshold pair with `lower ≤ higher`,
after sorting the row the multiset of pixels within each run's index range
is unchanged, and every pixel at an index outside all runs is identical to
its pre-call value. -/
theorem claim_C5 (m : SortBy) (lower higher : ℕ) (row : List Pixel)
    (_h : lower ≤ higher) :
    (∀ pq ∈ into_intervals (pixel_bitmap (pixel_property m) lower higher row),
      (region pq.1 pq.2 (sort_row (pixel_property m) lower higher row) : Multiset Pixel) =
        (region pq.1 pq.2 row : Multiset Pixel)) ∧
    (∀ i : ℕ,
      (∀ pq ∈ into_intervals (pixel_bitmap (pixel_property m) lower higher row),
        ¬(pq.1 ≤ i ∧ i < pq.2)) →
      (sort_row (pixel_property m) lower higher row)[i]? = row[i]?) := by
  constructor
  · intro pq hpq
    rw [sort_row_region (pixel_property m) lower higher row pq hpq]
    exact Multiset.coe_eq_coe.mpr (List.mergeSort_perm (region pq.1 pq.2 row) _)
  · intro i hout
    exact sort_row_outside (pixel_property m) lower higher row i hout

theorem claim_C5_witness :
    (0 : ℕ) ≤ 255 ∧
    ((∀ pq ∈ into_intervals (pixel_bitmap (pixel_property SortBy.Luminance) 0 255 []),
      (region pq.1 pq.2 (sort_row (pixel_property SortBy.Luminance) 0 255 []) : Multiset Pixel) =
        (region pq.1 pq.2 ([] : List Pixel) : Multiset Pixel)) ∧
    (∀ i : ℕ,
      (∀ pq ∈ into_intervals (pixel_bitmap (pixel_property SortBy.Luminance) 0 255 []),
        ¬(pq.1 ≤ i ∧ i < pq.2)) →
      (sort_row (pixel_property SortBy.Luminance) 0 255 [])[i]? = ([] : List Pixel)[i]?)) :=
  ⟨by decide, claim_C5 SortBy.Luminance 0 255 [] (by decide)⟩

/-- C6: for every row, metric and threshold pair with `lower ≤ higher`,
after sorting, within each run the metric keys are ascending: for positions
`i < j` inside a run, the key of the pixel at `i` is at most the key of the
pixel at `j`. -/
theorem claim_C6 (m : SortBy) (lower higher : ℕ) (row : List Pixel)
    (_h : lower ≤ higher) :
    ∀ pq ∈ into_intervals (pixel_bitmap (pixel_property m) lower higher row),
      ∀ i j : ℕ, pq.1 ≤ i → i < j → j < pq.2 →
      ∀ pi pj : Pixel,
        (sort_row (pixel_property m) lower higher row)[i]? = some pi →
        (sort_row (pixel_property m) lower higher row)[j]? = some pj →
        pixel_property m pi ≤ pixel_property m pj := by
  intro pq hpq i j hi hij hj pi pj hpi hpj
  have hB := into_intervals_bounds_row (pixel_property m) lower higher row pq hpq
  have hsorted : List.Pairwise (fun a b => keyLe (pixel_property m) a b = true)
      (region pq.1 pq.2 (sort_row (pixel_property m) lower higher row)) := by
    rw [sort_row_region (pixel_property m) lower higher row pq hpq]
    exact List.sorted_mergeSort (keyLe_trans (pixel_property m))
      (keyLe_total (pixel_property m)) _
  have hgi : (region pq.1 pq.2 (sort_row (pixel_property m) lower higher row))[i - pq.1]? =
      some pi := by
    rw [region_getElem?, if_pos (by omega), show pq.1 + (i - pq.1) = i by omega]
    exact hpi
  have hgj : (region pq.1 pq.2 (sort_row (pixel_property m) lower higher row))[j - pq.1]? =
      some pj := by
    rw [region_getElem?, if_pos (by omega), show pq.1 + (j - pq.1) = j by omega]
    exact hpj
  obtain ⟨hi', hgi'⟩ := List.getElem?_eq_some.mp hgi
  obtain ⟨hj', hgj'⟩ := List.getElem?_eq_some.mp hgj
  have hpw := List.pairwise_iff_getElem.mp hsorted (i - pq.1) (j - pq.1) hi' hj' (by omega)
  rw [hgi', hgj'] at hpw
  simpa [keyLe] using hpw

theorem claim_C6_witness :
    (0 : ℕ) ≤ 255 ∧
    (∀ pq ∈ into_intervals (pixel_bitmap (pixel_property SortBy.Hue) 0 255 []),
      ∀ i j : ℕ, pq.1 ≤ i → i < j → j < pq.2 →
      ∀ pi pj : Pixel,
        (sort_row (pixel_property SortBy.Hue) 0 255 [])[i]? = some pi →
        (sort_row (pixel_property SortBy.Hue) 0 255 [])[j]? = some pj →
        pixel_property SortBy.Hue pi ≤ pixel_property SortBy.Hue pj) :=
  ⟨by decide, claim_C6 SortBy.Hue 0 255 [] (by decide)⟩

/-- C7: for every row, metric and threshold pair with `lower ≤ higher`,
applying the row sort twice with the same metric and thresholds yields the
same row as applying it once; in particular re-running it on a row whose
runs are already ascending-by-key changes no pixel. -/
theorem claim_C7 (m : SortBy) (lower higher : ℕ) (row : List Pixel)
    (_h : lower ≤ higher) :
    sort_row (pixel_property m) lower higher
        (sort_row (pixel_property m) lower higher row) =
      sort_row (pixel_property m) lower higher row :=
  sort_row_idem (pixel_property m) lower higher row

theorem claim_C7_witness :
    (0 : ℕ) ≤ 255 ∧
    sort_row (pixel_property SortBy.Saturation) 0 255
        (sort_row (pixel_property SortBy.Saturation) 0 255 []) =
      sort_row (pixel_property SortBy.Saturation) 0 255 [] :=
  ⟨by decide, claim_C7 SortBy.Saturation 0 255 [] (by decide)⟩

/-- C8: sorting the image processes each row independently: replacing row
`y` never changes any other row `y'`, and the whole sort leaves the grid's
height (number of rows) and width (each row's length) unchanged. -/
theorem claim_C8 (m : SortBy) (lower higher : ℕ) (grid : List (List Pixel))
    (_h : lower ≤ higher) :
    (∀ y y' : ℕ, y' ≠ y →
      (sortImageStep (pixel_property m) lower higher grid y)[y']? = grid[y']?) ∧
    (sort_image (pixel_property m) lower higher grid).length = grid.length ∧
    (∀ y : ℕ,
      ((sort_image (pixel_property m) lower higher grid)[y]?).map List.length =
        (grid[y]?).map List.length) := by
  refine ⟨fun y y' hne => getElem?_sortImageStep_ne (pixel_property m) lower higher grid y y' hne,
    length_sort_image (pixel_property m) lower higher grid, fun y => ?_⟩
  rw [sort_image_getElem? (pixel_property m) lower higher grid y]
  cases grid[y]? with
  | none => rfl
  | some r =>
    simp [length_sort_row]

theorem claim_C8_witness :
    (0 : ℕ) ≤ 255 ∧
    ((∀ y y' : ℕ, y' ≠ y →
      (sortImageStep (pixel_property SortBy.Luminance) 0 255
        ([[]] : List (List Pixel)) y)[y']? = ([[]] : List (List Pixel))[y']?) ∧
    (sort_image (pixel_property SortBy.Luminance) 0 255
      ([[]] : List (List Pixel))).length = ([[]] : List (List Pixel)).length ∧
    (∀ y : ℕ,
      ((sort_image (pixel_property SortBy.Luminance) 0 255
        ([[]] : List (List Pixel)))[y]?).map List.length =
          (([[]] : List (List Pixel))[y]?).map List.length)) :=
  ⟨by decide, claim_C8 SortBy.Luminance 0 255 ([[]] : List (List Pixel)) (by decide)⟩

/-- C9: the per-run sort is stable: within each run, the subsequence of
pixels having any fixed metric key value is exactly the same (same pixels,
same relative order) before and after sorting, so equal-key pixels keep
their input order and the output is reproducible. -/
theorem claim_C9 (m : SortBy) (lower higher : ℕ) (row : List Pixel)
    (_h : lower ≤ higher) :
    ∀ pq ∈ into_intervals (pixel_bitmap (pixel_property m) lower higher row),
      ∀ k : ℕ,
        (region pq.1 pq.2 (sort_row (pixel_property m) lower higher row)).filter
            (fun px => decide (pixel_property m px = k)) =
          (region pq.1 pq.2 row).filter (fun px => decide (pixel_property m px = k)) := by
  intro pq hpq k
  rw [sort_row_region (pixel_property m) lower higher row pq hpq]
  exact filter_mergeSort_stable (pixel_property m) k (region pq.1 pq.2 row)

theorem claim_C9_witness :
    (0 : ℕ) ≤ 255 ∧
    (∀ pq ∈ into_intervals (pixel_bitmap (pixel_property SortBy.Saturation) 0 255 []),
      ∀ k : ℕ,
        (region pq.1 pq.2 (sort_row (pixel_property SortBy.Saturation) 0 255 [])).filter
            (fun px => decide (pixel_property SortBy.Saturation px = k)) =
          (region pq.1 pq.2 ([] : List Pixel)).filter
            (fun px => decide (pixel_property SortBy.Saturation px = k))) :=
  ⟨by decide, claim_C9 SortBy.Saturation 0 255 [] (by decide)⟩

/-- C10: no metric key depends on the alpha channel: two pixels agreeing on
R, G and B but differing in alpha get the same key under every metric. -/
theorem claim_C10 (m : SortBy) (r g b a1 a2 : Fin 256) :
    pixel_property m ⟨r, g, b, a1⟩ = pixel_property m ⟨r, g, b, a2⟩ := by
  cases m <;> rfl
